import Mathlib

/-!
Verification development for the type-theoretic core of the rowscript
compiler (`src/core/src/theory`).  The abstract-syntax module
(`theory/abs/data.rs`) and the renamer (`theory/abs/rename.rs`) are not
present in the source tree; the corresponding definitions below are
modelled from the specification and from their use sites in
`normalize.rs`, `unify.rs` and `def.rs`.  All other definitions are
direct shallow embeddings of the Rust source.  Rust panics
(`unwrap`/indexing/`unreachable!`) are modelled by the result
constructor `Res.crash`; recursion is made total with an explicit fuel
parameter, fuel exhaustion being `Res.timeout`.
-/

namespace RowScript

/-- Field and variable display names (`String` in the Rust source). -/
abbrev Name := String

/-- Modelled from the spec: a variable is a fresh identity with a display
name; equality is identity-based (`LocalVar` in `theory/mod.rs` compares
the pointer identity `id()`, not the name).  We model the identity as a
natural number and compare only `id` wherever the source compares vars. -/
structure Var where
  id : Nat
  name : Name
deriving DecidableEq, Repr

/-- Source location (`Loc` in `theory/mod.rs`).  The Rust field `end` is
renamed to `stop` because `end` is a Lean keyword. -/
structure Loc where
  line : Nat
  col : Nat
  start : Nat
  stop : Nat
deriving DecidableEq, Repr

/-- Parameter mode (`ParamInfo` in `theory/mod.rs`). -/
inductive ParamInfo where
  | Explicit
  | Implicit
deriving DecidableEq, Repr

/-- Row-ordering direction (`Dir` in the abs data module). -/
inductive Dir where
  | Le
  | Ge
deriving DecidableEq, Repr

/-- Metavariable kind (`MetaKind`): user hole vs inserted hole. -/
inductive MetaKind where
  | UserMeta
  | InsertedMeta
deriving DecidableEq, Repr

/-- Parameter (`Param<T>` in `theory/mod.rs`): variable, mode, type. -/
structure Param (T : Type) where
  var : Var
  info : ParamInfo
  typ : T
deriving Repr

/-- Modelled from the spec: the core term language (`Term` in the absent
`theory/abs/data.rs`), with the exact constructor set listed in the spec
data model and used by `normalize.rs` / `unify.rs`.  `FieldMap` is
inlined as an association list kept sorted by key (the spec requires
deterministic lexical iteration order where observable); the `f64`
payload of `Num` is modelled as the raw text plus an integer stand-in
(no claim depends on float semantics). -/
inductive Term where
  | Ref (v : Var)
  | MetaRef (k : MetaKind) (v : Var) (sp : List (ParamInfo × Term))
  | Undef (v : Var)
  | Qualified (m : Nat) (v : Var)
  | Let (p : Param Term) (a : Term) (b : Term)
  | Pi (p : Param Term) (b : Term)
  | Lam (p : Param Term) (b : Term)
  | App (f : Term) (x : Term)
  | Sigma (p : Param Term) (b : Term)
  | Tuple (a : Term) (b : Term)
  | TupleLet (p : Param Term) (q : Param Term) (a : Term) (b : Term)
  | UnitLet (a : Term) (b : Term)
  | If (p : Term) (t : Term) (e : Term)
  | Univ
  | Unit
  | TT
  | Boolean
  | False
  | True
  | String
  | Str (s : Name)
  | Number
  | Num (raw : Name) (v : Int)
  | BigInt
  | Big (s : Name)
  | Row
  | Fields (fs : List (Name × Term))
  | Combine (a : Term) (b : Term)
  | RowOrd (a : Term) (d : Dir) (b : Term)
  | RowEq (a : Term) (b : Term)
  | RowSat
  | RowRefl
  | Object (r : Term)
  | Obj (a : Term)
  | Concat (a : Term) (b : Term)
  | Access (a : Term) (n : Name)
  | Downcast (a : Term) (f : Term)
  | Enum (r : Term)
  | Variant (r : Term)
  | Upcast (a : Term) (f : Term)
  | Switch (a : Term) (cs : List (Name × Var × Term))
  | ImplementsOf (a : Term) (i : Var)
  | ImplementsSat
  | Find (ty : Term) (i : Var) (f : Var)
  | Vptr (cls : Var) (ts : List Term)
deriving Repr

/-- Field maps (`FieldMap`): association lists sorted strictly by key. -/
abbrev FieldMap := List (Name × Term)

/-- Lexicographic comparison of character lists by code point, written
structurally so that it computes by kernel reduction. -/
def charsLt : List Char → List Char → Bool
  | [], [] => false
  | [], _ :: _ => true
  | _ :: _, [] => false
  | a :: as, b :: bs =>
    if a.toNat < b.toNat then true
    else if b.toNat < a.toNat then false
    else charsLt as bs

/-- Lexicographic order on names. -/
def nameLt (a b : Name) : Bool :=
  charsLt a.data b.data

/-- Insert into a field map, replacing the value on an existing key and
otherwise keeping the list sorted (the `FieldMap::insert` of the absent
data module, modelled from the spec requirement of lexical ordering). -/
def insertField (n : Name) (v : Term) : FieldMap → FieldMap
  | [] => [(n, v)]
  | (m, w) :: rest =>
    if n = m then (n, v) :: rest
    else if nameLt n m then (n, v) :: (m, w) :: rest
    else (m, w) :: insertField n v rest

/-- Lookup in a field map (`FieldMap::get`). -/
def lookupField (fs : FieldMap) (n : Name) : Option Term :=
  match fs with
  | [] => none
  | (m, w) :: rest => if n = m then some w else lookupField rest n

/-- Lookup in a switch case map (`CaseMap::get`). -/
def lookupCase (cs : List (Name × Var × Term)) (n : Name) : Option (Var × Term) :=
  match cs with
  | [] => none
  | (m, v, t) :: rest => if n = m then some (v, t) else lookupCase rest n

/-- Domain of a field map. -/
def fieldKeys (fs : FieldMap) : List Name := fs.map Prod.fst

/-- Telescope: ordered parameter list (`Tele<T>` in `theory/mod.rs`). -/
abbrev Tele := List (Param Term)

/-- Modelled from the spec: `Term::lam(&tele, body)` of the absent data
module folds a telescope into nested lambdas. -/
def Term.lam (tele : Tele) (f : Term) : Term :=
  tele.foldr (fun p acc => Term.Lam p acc) f

/-- Modelled from the spec: `Term::pi(&tele, ret)` folds a telescope into
nested Pi types (the type of a definition, `Def::to_type`). -/
def Term.pi (tele : Tele) (ret : Term) : Term :=
  tele.foldr (fun p acc => Term.Pi p acc) ret

/-- Definition body (`Body<T>` in `theory/abs/def.rs`, extended with the
interface/implementation variants that `normalize.rs` and the spec data
model require; the copy of `def.rs` in the tree predates them). -/
inductive Body where
  | Fun (f : Term)
  | Postulate
  | Alias (t : Term)
  | Class
  | Ctor (t : Term)
  | Method (t : Term)
  | Undefined
  | Meta (k : MetaKind) (s : Option Term)
  | Interface (fns : List Var) (ims : List Var)
  | Implements (i : Var) (im : Var) (fns : List (Var × Var))
  | ImplementsFn (f : Term)
  | Findable (i : Var)
deriving Repr

/-- Global definition (`Def<Term>` in `theory/abs/def.rs`). -/
structure Def where
  loc : Loc
  name : Var
  tele : Tele
  ret : Term
  body : Body
deriving Repr

/-- The global definition table Σ (`Sigma = HashMap<Var, Def<Term>>`),
keyed by variable identity. -/
abbrev Sigma := List (Nat × Def)

/-- Lookup in Σ (`sigma.get(&v)`). -/
def sigmaGet (s : Sigma) (v : Var) : Option Def :=
  match s with
  | [] => none
  | (k, d) :: rest => if k = v.id then some d else sigmaGet rest v

/-- Insert into Σ, replacing any existing entry (`sigma.insert(v, d)`). -/
def sigmaInsert (s : Sigma) (id : Nat) (d : Def) : Sigma :=
  match s with
  | [] => [(id, d)]
  | (k, e) :: rest => if k = id then (k, d) :: rest else (k, e) :: sigmaInsert rest id d

/-- The normalization environment ρ (`Rho = HashMap<Var, Box<Term>>`),
keyed by variable identity; insertion overwrites. -/
abbrev Rho := List (Nat × Term)

/-- Lookup in ρ (`rho.get(&x)`). -/
def rhoGet (r : Rho) (v : Var) : Option Term :=
  match r with
  | [] => none
  | (k, t) :: rest => if k = v.id then some t else rhoGet rest v

/-- Insert into ρ (`rho.insert(x, v)`); prepending gives overwrite
semantics under `rhoGet`. -/
def rhoInsert (v : Var) (t : Term) (r : Rho) : Rho :=
  (v.id, t) :: r

/-- Renaming environment: maps original binder identities to their fresh
replacements. -/
abbrev RenMap := List (Nat × Var)

/-- Lookup in a renaming environment. -/
def renLookup (m : RenMap) (id : Nat) : Option Var :=
  match m with
  | [] => none
  | (k, v) :: rest => if k = id then some v else renLookup rest id

mutual

/-- Modelled from the spec: the renamer (`rename` in the absent
`theory/abs/rename.rs`) substitutes a fresh variable for every binder it
passes, preserving alpha-equivalence.  `c` is the fresh-identity
counter, threaded through and returned. -/
def renameGo (m : RenMap) (c : Nat) : Term → (Term × Nat)
  | .Ref v =>
    match renLookup m v.id with
    | some w => (.Ref w, c)
    | none => (.Ref v, c)
  | .MetaRef k v sp =>
    let (sp', c') := renameSp m c sp
    (.MetaRef k v sp', c')
  | .Undef v => (.Undef v, c)
  | .Qualified mo v => (.Qualified mo v, c)
  | .Let p a b =>
    let (ty', c1) := renameGo m c p.typ
    let (a', c2) := renameGo m c1 a
    let w : Var := ⟨c2, p.var.name⟩
    let (b', c3) := renameGo ((p.var.id, w) :: m) (c2 + 1) b
    (.Let ⟨w, p.info, ty'⟩ a' b', c3)
  | .Pi p b =>
    let (ty', c1) := renameGo m c p.typ
    let w : Var := ⟨c1, p.var.name⟩
    let (b', c2) := renameGo ((p.var.id, w) :: m) (c1 + 1) b
    (.Pi ⟨w, p.info, ty'⟩ b', c2)
  | .Lam p b =>
    let (ty', c1) := renameGo m c p.typ
    let w : Var := ⟨c1, p.var.name⟩
    let (b', c2) := renameGo ((p.var.id, w) :: m) (c1 + 1) b
    (.Lam ⟨w, p.info, ty'⟩ b', c2)
  | .App f x =>
    let (f', c1) := renameGo m c f
    let (x', c2) := renameGo m c1 x
    (.App f' x', c2)
  | .Sigma p b =>
    let (ty', c1) := renameGo m c p.typ
    let w : Var := ⟨c1, p.var.name⟩
    let (b', c2) := renameGo ((p.var.id, w) :: m) (c1 + 1) b
    (.Sigma ⟨w, p.info, ty'⟩ b', c2)
  | .Tuple a b =>
    let (a', c1) := renameGo m c a
    let (b', c2) := renameGo m c1 b
    (.Tuple a' b', c2)
  | .TupleLet p q a b =>
    let (pty', c1) := renameGo m c p.typ
    let (qty', c2) := renameGo m c1 q.typ
    let (a', c3) := renameGo m c2 a
    let w1 : Var := ⟨c3, p.var.name⟩
    let w2 : Var := ⟨c3 + 1, q.var.name⟩
    let (b', c4) := renameGo ((p.var.id, w1) :: (q.var.id, w2) :: m) (c3 + 2) b
    (.TupleLet ⟨w1, p.info, pty'⟩ ⟨w2, q.info, qty'⟩ a' b', c4)
  | .UnitLet a b =>
    let (a', c1) := renameGo m c a
    let (b', c2) := renameGo m c1 b
    (.UnitLet a' b', c2)
  | .If p t e =>
    let (p', c1) := renameGo m c p
    let (t', c2) := renameGo m c1 t
    let (e', c3) := renameGo m c2 e
    (.If p' t' e', c3)
  | .Univ => (.Univ, c)
  | .Unit => (.Unit, c)
  | .TT => (.TT, c)
  | .Boolean => (.Boolean, c)
  | .False => (.False, c)
  | .True => (.True, c)
  | .String => (.String, c)
  | .Str s => (.Str s, c)
  | .Number => (.Number, c)
  | .Num r v => (.Num r v, c)
  | .BigInt => (.BigInt, c)
  | .Big s => (.Big s, c)
  | .Row => (.Row, c)
  | .Fields fs =>
    let (fs', c') := renameFields m c fs
    (.Fields fs', c')
  | .Combine a b =>
    let (a', c1) := renameGo m c a
    let (b', c2) := renameGo m c1 b
    (.Combine a' b', c2)
  | .RowOrd a d b =>
    let (a', c1) := renameGo m c a
    let (b', c2) := renameGo m c1 b
    (.RowOrd a' d b', c2)
  | .RowEq a b =>
    let (a', c1) := renameGo m c a
    let (b', c2) := renameGo m c1 b
    (.RowEq a' b', c2)
  | .RowSat => (.RowSat, c)
  | .RowRefl => (.RowRefl, c)
  | .Object r =>
    let (r', c') := renameGo m c r
    (.Object r', c')
  | .Obj a =>
    let (a', c') := renameGo m c a
    (.Obj a', c')
  | .Concat a b =>
    let (a', c1) := renameGo m c a
    let (b', c2) := renameGo m c1 b
    (.Concat a' b', c2)
  | .Access a n =>
    let (a', c') := renameGo m c a
    (.Access a' n, c')
  | .Downcast a f =>
    let (a', c1) := renameGo m c a
    let (f', c2) := renameGo m c1 f
    (.Downcast a' f', c2)
  | .Enum r =>
    let (r', c') := renameGo m c r
    (.Enum r', c')
  | .Variant r =>
    let (r', c') := renameGo m c r
    (.Variant r', c')
  | .Upcast a f =>
    let (a', c1) := renameGo m c a
    let (f', c2) := renameGo m c1 f
    (.Upcast a' f', c2)
  | .Switch a cs =>
    let (a', c1) := renameGo m c a
    let (cs', c2) := renameCases m c1 cs
    (.Switch a' cs', c2)
  | .ImplementsOf a i =>
    let (a', c') := renameGo m c a
    (.ImplementsOf a' i, c')
  | .ImplementsSat => (.ImplementsSat, c)
  | .Find ty i f =>
    let (ty', c') := renameGo m c ty
    (.Find ty' i f, c')
  | .Vptr cls ts =>
    let (ts', c') := renameList m c ts
    (.Vptr cls ts', c')

/-- Renaming over a metavariable spine. -/
def renameSp (m : RenMap) (c : Nat) : List (ParamInfo × Term) → (List (ParamInfo × Term) × Nat)
  | [] => ([], c)
  | (i, t) :: rest =>
    let (t', c1) := renameGo m c t
    let (rest', c2) := renameSp m c1 rest
    ((i, t') :: rest', c2)

/-- Renaming over field-map values. -/
def renameFields (m : RenMap) (c : Nat) : List (Name × Term) → (List (Name × Term) × Nat)
  | [] => ([], c)
  | (n, t) :: rest =>
    let (t', c1) := renameGo m c t
    let (rest', c2) := renameFields m c1 rest
    ((n, t') :: rest', c2)

/-- Renaming over switch cases (each case variable is a binder). -/
def renameCases (m : RenMap) (c : Nat) : List (Name × Var × Term) → (List (Name × Var × Term) × Nat)
  | [] => ([], c)
  | (n, v, t) :: rest =>
    let w : Var := ⟨c, v.name⟩
    let (t', c1) := renameGo ((v.id, w) :: m) (c + 1) t
    let (rest', c2) := renameCases m c1 rest
    ((n, w, t') :: rest', c2)

/-- Renaming over a term list (`Vptr` type arguments). -/
def renameList (m : RenMap) (c : Nat) : List Term → (List Term × Nat)
  | [] => ([], c)
  | t :: rest =>
    let (t', c1) := renameGo m c t
    let (rest', c2) := renameList m c1 rest
    (t' :: rest', c2)

end

/-- Top-level renamer entry point (`rename(tm)`), threading the fresh
counter. -/
def rename (c : Nat) (t : Term) : Term × Nat :=
  renameGo [] c t

/-- Canonical term of a definition (`Def::to_term` in
`theory/abs/def.rs`): `Fun`/`Alias` give the renamed lambda of the
telescope over the body, `Postulate` gives `Ref`, `Undefined` gives
`Undef`; every other body is `unreachable!` (modelled as `none`, a
panic at the call sites).  The `ImplementsFn` arm is modelled from the
spec (instance search returns the canonical term of the implementation
function), the in-tree copy of `def.rs` predating interfaces. -/
def toTerm (d : Def) (v : Var) (c : Nat) : Option (Term × Nat) :=
  match d.body with
  | .Fun f => some (rename c (Term.lam d.tele f))
  | .Alias t => some (rename c (Term.lam d.tele t))
  | .ImplementsFn f => some (rename c (Term.lam d.tele f))
  | .Postulate => some (.Ref v, c)
  | .Undefined => some (.Undef v, c)
  | _ => none

/-- Error taxonomy (`Error` in `lib.rs`; every kind carries a source
location).  `DuplicateField` is the constructor actually raised by the
in-tree `resolve.rs` (the `Error` enum in the in-tree `lib.rs` spells
the duplicate-binding error `DuplicateName` and carries only the
location; the two files are from different revisions). -/
inductive Err where
  | UnresolvedVar (l : Loc)
  | DuplicateName (l : Loc)
  | DuplicateField (n : Name) (l : Loc)
  | UnresolvedImplicitParam (n : Name) (l : Loc)
  | ExpectedPi (t : Term) (l : Loc)
  | ExpectedSigma (t : Term) (l : Loc)
  | ExpectedObject (t : Term) (l : Loc)
  | ExpectedEnum (t : Term) (l : Loc)
  | FieldsUnknown (t : Term) (l : Loc)
  | ExpectedClass (t : Term) (l : Loc)
  | NonExhaustive (t : Term) (l : Loc)
  | UnresolvedField (n : Name) (t : Term) (l : Loc)
  | ExpectedInterface (t : Term) (l : Loc)
  | ExpectedAlias (t : Term) (l : Loc)
  | UnresolvedImplementation (t : Term) (l : Loc)
  | ExpectedImplementsOf (t : Term) (l : Loc)
  | NonUnifiable (a : Term) (b : Term) (l : Loc)
  | NonRowSat (a : Term) (b : Term) (l : Loc)
  | UnsolvedMeta (t : Term) (l : Loc)
  | NonErasable (t : Term) (l : Loc)
deriving Repr

/-- Mutable state threaded through the normalizer and unifier: the
definition table Σ plus the fresh-identity counter used by the
renamer. -/
structure St where
  sigma : Sigma
  ctr : Nat
deriving Repr

/-- Computation outcome over a state type: success and failure both
carry the state (Rust mutates through `&mut` borrows, so writes survive
an `Err` return); `crash` models a Rust panic, `timeout` models fuel
exhaustion of the embedding. -/
inductive Res (σ : Type) (α : Type) where
  | ok (a : α) (st : σ)
  | err (e : Err) (st : σ)
  | crash
  | timeout

/-- Sequencing of outcomes (Rust `?`). -/
def Res.bind {σ α β : Type} : Res σ α → (α → σ → Res σ β) → Res σ β
  | .ok a st, f => f a st
  | .err e st, _ => .err e st
  | .crash, _ => .crash
  | .timeout, _ => .timeout

@[simp] theorem Res.bind_ok {σ α β : Type} (a : α) (st : σ) (f : α → σ → Res σ β) :
    (Res.ok a st).bind f = f a st := rfl

@[simp] theorem Res.bind_err {σ α β : Type} (e : Err) (st : σ) (f : α → σ → Res σ β) :
    (Res.err e st).bind f = .err e st := rfl

@[simp] theorem Res.bind_crash {σ α β : Type} (f : α → σ → Res σ β) :
    (Res.crash : Res σ α).bind f = .crash := rfl

@[simp] theorem Res.bind_timeout {σ α β : Type} (f : α → σ → Res σ β) :
    (Res.timeout : Res σ α).bind f = .timeout := rfl

/-- Outcome type of the normalizer/unifier. -/
abbrev NRes (α : Type) := Res St α

/-- The mutually recursive entry points of `Normalizer` and `Unifier`,
gathered in one record so the whole recursion can be tied by a single
fuel parameter (`interp` below).  Each field matches one Rust method. -/
structure Interp where
  term : Loc → Term → Rho → St → NRes (Term × Rho)
  unify : Loc → Term → Term → St → NRes Unit
  solve : Loc → Var → Term → St → NRes Unit
  unifyFieldsOrd : Loc → FieldMap → FieldMap → St → NRes Unit
  unifyFieldsEq : Loc → FieldMap → FieldMap → St → NRes Unit
  checkConstraint : Loc → Term → Var → St → NRes Unit
  findImplementation : Loc → Term → Var → Var → St → NRes Term

/-- Auto-solution for constraint-typed metas
(`Normalizer::auto_implicit`). -/
def autoImplicit : Term → Option Term
  | .RowEq _ _ => some .RowRefl
  | .RowOrd _ _ _ => some .RowSat
  | .ImplementsOf _ _ => some .ImplementsSat
  | _ => none

/-- Application of a solved meta to its spine (the `for (_, x) in sp`
loop of the `MetaRef` case). -/
def spineApp (f : Term) (sp : List (ParamInfo × Term)) : Term :=
  sp.foldl (fun acc pr => Term.App acc pr.2) f

/-- The right-biased field merge of the `Combine` case: insert all of
`a`, then all of `b`, into a fresh map. -/
def mergeFields (a b : FieldMap) : FieldMap :=
  (a ++ b).foldl (fun m pr => insertField pr.1 pr.2 m) []

/-- The field merge of the `Concat` case: start from `x`, insert all of
`y`. -/
def concatFields (x y : FieldMap) : FieldMap :=
  y.foldl (fun m pr => insertField pr.1 pr.2 m) x

/-- The collection of the `Downcast` case: for each key of `y` take the
value in `x` (`x[n]` panics when absent, modelled by `none`). -/
def pickFields (y x : FieldMap) : Option FieldMap :=
  match y with
  | [] => some []
  | (n, _) :: rest =>
    match lookupField x n with
    | none => none
    | some v =>
      match pickFields rest x with
      | none => none
      | some r => some ((n, v) :: r)

/-- `Normalizer::with`: extend ρ with the given pairs, then normalize. -/
def withRho (rec : Interp) (loc : Loc) (prs : List (Var × Term)) (t : Term)
    (r : Rho) (st : St) : NRes (Term × Rho) :=
  rec.term loc t (prs.foldl (fun acc pr => rhoInsert pr.1 pr.2 acc) r) st

/-- `Normalizer::apply`: apply a head to arguments, beta-reducing
through lambdas. -/
def applyLoop (rec : Interp) (loc : Loc) (f : Term) (args : List Term)
    (r : Rho) (st : St) : NRes (Term × Rho) :=
  match args with
  | [] => .ok (f, r) st
  | x :: rest =>
    match f with
    | .Lam p b =>
      (withRho rec loc [(p.var, x)] b r st).bind fun (f', r') st' =>
        applyLoop rec loc f' rest r' st'
    | f => applyLoop rec loc (.App f x) rest r st

/-- The `for (f, tm) in fields` loop of the `Fields` case: normalize
every value, inserting into a fresh map. -/
def normFieldsLoop (rec : Interp) (loc : Loc) (fs : List (Name × Term))
    (acc : FieldMap) (r : Rho) (st : St) : NRes (FieldMap × Rho) :=
  match fs with
  | [] => .ok (acc, r) st
  | (n, t) :: rest =>
    (rec.term loc t r st).bind fun (t', r') st' =>
      normFieldsLoop rec loc rest (insertField n t' acc) r' st'

/-- The `for im in ims` loop of `Normalizer::check_constraint`: try each
implementation in the given order; a failed unification is swallowed
(keeping its Σ effects) and the scan continues. -/
def checkConstraintLoop (rec : Interp) (loc : Loc) (x : Term) (ims : List Var)
    (st : St) : NRes Unit :=
  match ims with
  | [] => .err (.UnresolvedImplementation x loc) st
  | im :: rest =>
    match sigmaGet st.sigma im with
    | none => .crash
    | some dIm =>
      match dIm.body with
      | .Implements _ imTy _ =>
        match sigmaGet st.sigma imTy with
        | none => .crash
        | some dTy =>
          match toTerm dTy imTy st.ctr with
          | none => .crash
          | some (y, c') =>
            match rec.unify loc y x { st with ctr := c' } with
            | .ok _ st' => .ok () st'
            | .err _ st' => checkConstraintLoop rec loc x rest st'
            | .crash => .crash
            | .timeout => .timeout
      | _ => .crash

/-- Lookup in a Var-keyed map (`fns.get(&f)`), comparing identities as
the source `HashMap<Var, _>` does. -/
def lookupVar (fns : List (Var × Var)) (f : Var) : Option Var :=
  match fns with
  | [] => none
  | (k, v) :: rest => if k.id = f.id then some v else lookupVar rest f

/-- The `for im in ims.into_iter().rev()` loop of
`Normalizer::find_implementation` (the caller passes the reversed
list): on the first implementor type that unifies, return the canonical
term of the implementation function. -/
def findImplLoop (rec : Interp) (loc : Loc) (ty : Term) (f : Var)
    (ims : List Var) (st : St) : NRes Term :=
  match ims with
  | [] => .err (.UnresolvedImplementation ty loc) st
  | im :: rest =>
    match sigmaGet st.sigma im with
    | none => .crash
    | some dIm =>
      match dIm.body with
      | .Implements _ imTy fns =>
        match sigmaGet st.sigma imTy with
        | none => .crash
        | some dTy =>
          match toTerm dTy imTy st.ctr with
          | none => .crash
          | some (y, c') =>
            match lookupVar fns f with
            | none => .crash
            | some imFn =>
              match rec.unify loc ty y { st with ctr := c' } with
              | .err _ st' => findImplLoop rec loc ty f rest st'
              | .ok _ st' =>
                match sigmaGet st'.sigma imFn with
                | none => .crash
                | some dFn =>
                  match toTerm dFn imFn st'.ctr with
                  | none => .crash
                  | some (tm, c2) => .ok tm { st' with ctr := c2 }
              | .crash => .crash
              | .timeout => .timeout
      | _ => .crash

/-- The `for (x, a) in small` loop of `Unifier::unify_fields_ord`:
every field of `small` must appear in `big` with a unifiable type;
a missing field raises `NonRowSat` carrying the two full maps. -/
def unifyFieldsOrdLoop (rec : Interp) (loc : Loc) (rem : FieldMap)
    (small big : FieldMap) (st : St) : NRes Unit :=
  match rem with
  | [] => .ok () st
  | (x, a) :: rest =>
    match lookupField big x with
    | some b =>
      (rec.unify loc a b st).bind fun _ st' =>
        unifyFieldsOrdLoop rec loc rest small big st'
    | none => .err (.NonRowSat (.Fields small) (.Fields big) loc) st

/-- The `for (n, x) in a` loop of `Unifier::unify_fields_eq`. -/
def unifyFieldsEqLoop (rec : Interp) (loc : Loc) (rem : FieldMap)
    (a b : FieldMap) (st : St) : NRes Unit :=
  match rem with
  | [] => .ok () st
  | (n, x) :: rest =>
    match lookupField b n with
    | some y =>
      (rec.unify loc x y st).bind fun _ st' =>
        unifyFieldsEqLoop rec loc rest a b st'
    | none => .err (.NonUnifiable (.Fields a) (.Fields b) loc) st

/-- The `ImplementsOf` case of `Normalizer::term`: a plain reference is
returned untouched, anything else triggers instance search (whose Σ
effects are kept) and the constraint is rebuilt unchanged. -/
def implementsOfCase (rec : Interp) (loc : Loc) (a : Term) (i : Var) (r : Rho)
    (st : St) : NRes (Term × Rho) :=
  match a with
  | .Ref v => .ok (.ImplementsOf (.Ref v) i, r) st
  | a =>
    (rec.checkConstraint loc a i st).bind fun _ st' =>
      .ok (.ImplementsOf a i, r) st'

/-- The `Find` case of `Normalizer::term`: a plain reference is kept,
anything else is resolved through the implementation lookup. -/
def findCase (rec : Interp) (loc : Loc) (ty : Term) (i f : Var) (r : Rho)
    (st : St) : NRes (Term × Rho) :=
  match ty with
  | .Ref rv => .ok (.Find (.Ref rv) i f, r) st
  | ty =>
    (rec.findImplementation loc ty i f st).bind fun tm' st' =>
      .ok (tm', r) st'

/-- Tail of the `App` case of `Normalizer::term`: keep the application
when the normalized argument is a `MetaRef`, beta-reduce through a
normalized `Lam` head, and rebuild otherwise. -/
def appFinish (rec : Interp) (loc : Loc) (f1 x1 : Term) (r2 : Rho) (st2 : St) :
    NRes (Term × Rho) :=
  match x1 with
  | .MetaRef k v sp => .ok (.App f1 (.MetaRef k v sp), r2) st2
  | x1 =>
    match f1 with
    | .Lam p b => rec.term loc b (rhoInsert p.var x1 r2) st2
    | f1 => .ok (.App f1 x1, r2) st2

/-- `Normalizer::term` (normalize.rs, one recursion level). -/
def termF (rec : Interp) : Loc → Term → Rho → St → NRes (Term × Rho) :=
  fun loc tm r st =>
    match tm with
    | .Ref x =>
      match rhoGet r x with
      | some y =>
        let (y', c') := rename st.ctr y
        rec.term loc y' r { st with ctr := c' }
      | none => .ok (.Ref x, r) st
    | .MetaRef k x sp =>
      match sigmaGet st.sigma x with
      | none => .crash
      | some d =>
        (rec.term loc d.ret r st).bind fun (ret', r1) st1 =>
          match d.body with
          | .Meta _ (some solved) =>
            let (lt, c') := rename st1.ctr (Term.lam d.tele solved)
            (rec.term loc (spineApp lt sp) r1 { st1 with ctr := c' }).bind
              fun (v, r2) st2 =>
                .ok (v, r2)
                  { st2 with sigma := sigmaInsert st2.sigma x.id { d with ret := ret' } }
          | .Meta _ none =>
            match autoImplicit ret' with
            | some tm' =>
              .ok (tm', r1)
                { st1 with
                  sigma := sigmaInsert st1.sigma x.id
                    { d with ret := ret', body := .Meta k (some tm') } }
            | none =>
              .ok (.MetaRef k x sp, r1)
                { st1 with sigma := sigmaInsert st1.sigma x.id { d with ret := ret' } }
          | _ => .crash
    | .Undef x =>
      match sigmaGet st.sigma x with
      | none => .crash
      | some d =>
        match toTerm d x st.ctr with
        | none => .crash
        | some (t, c') => .ok (t, r) { st with ctr := c' }
    -- The in-tree normalize.rs has no arm for Qualified (it appears only
    -- in unify.rs; the files are from different revisions); returned
    -- unchanged like the other atoms.  No claim depends on it.
    | .Qualified m v => .ok (.Qualified m v, r) st
    | .Let p a b =>
      (rec.term loc a r st).bind fun (a', r1) st1 =>
        match a' with
        | .MetaRef k v sp => .ok (.Let p (.MetaRef k v sp) b, r1) st1
        | a' => withRho rec loc [(p.var, a')] b r1 st1
    | .Pi p b =>
      (rec.term loc p.typ r st).bind fun (ty', r1) st1 =>
        (rec.term loc b r1 st1).bind fun (b', r2) st2 =>
          .ok (.Pi ⟨p.var, p.info, ty'⟩ b', r2) st2
    | .Lam p b =>
      (rec.term loc p.typ r st).bind fun (ty', r1) st1 =>
        (rec.term loc b r1 st1).bind fun (b', r2) st2 =>
          .ok (.Lam ⟨p.var, p.info, ty'⟩ b', r2) st2
    | .App f x =>
      (rec.term loc f r st).bind fun (f', r1) st1 =>
        (rec.term loc x r1 st1).bind fun (x', r2) st2 =>
          appFinish rec loc f' x' r2 st2
    | .Sigma p b =>
      (rec.term loc p.typ r st).bind fun (ty', r1) st1 =>
        (rec.term loc b r1 st1).bind fun (b', r2) st2 =>
          .ok (.Sigma ⟨p.var, p.info, ty'⟩ b', r2) st2
    | .Tuple a b =>
      (rec.term loc a r st).bind fun (a', r1) st1 =>
        (rec.term loc b r1 st1).bind fun (b', r2) st2 =>
          .ok (.Tuple a' b', r2) st2
    | .TupleLet p q a b =>
      (rec.term loc a r st).bind fun (a', r1) st1 =>
        match a' with
        | .MetaRef k v sp => .ok (.TupleLet p q (.MetaRef k v sp) b, r1) st1
        | .Tuple x y => rec.term loc b (rhoInsert q.var y (rhoInsert p.var x r1)) st1
        | a' => .ok (.TupleLet p q a' b, r1) st1
    | .UnitLet a b =>
      (rec.term loc a r st).bind fun (a', r1) st1 =>
        match a' with
        | .MetaRef k v sp => .ok (.UnitLet (.MetaRef k v sp) b, r1) st1
        | .TT => rec.term loc b r1 st1
        | a' => .ok (.UnitLet a' b, r1) st1
    | .If p t e =>
      (rec.term loc p r st).bind fun (p', r1) st1 =>
        match p' with
        | .True => rec.term loc t r1 st1
        | .False => rec.term loc e r1 st1
        | p' => .ok (.If p' t e, r1) st1
    | .Fields fs =>
      (normFieldsLoop rec loc fs [] r st).bind fun (nf, r1) st1 =>
        .ok (.Fields nf, r1) st1
    | .Combine a b =>
      (rec.term loc a r st).bind fun (a', r1) st1 =>
        (rec.term loc b r1 st1).bind fun (b', r2) st2 =>
          match a', b' with
          | .Fields fa, .Fields fb => .ok (.Fields (mergeFields fa fb), r2) st2
          | a', b' => .ok (.Combine a' b', r2) st2
    | .RowOrd a d b =>
      (rec.term loc a r st).bind fun (a', r1) st1 =>
        (rec.term loc b r1 st1).bind fun (b', r2) st2 =>
          match a', b' with
          | .Fields fa, .Fields fb =>
            (match d with
             | .Le => rec.unifyFieldsOrd loc fa fb st2
             | .Ge => rec.unifyFieldsOrd loc fb fa st2).bind fun _ st3 =>
              .ok (.RowOrd (.Fields fa) d (.Fields fb), r2) st3
          | a', b' => .ok (.RowOrd a' d b', r2) st2
    | .RowEq a b =>
      (rec.term loc a r st).bind fun (a', r1) st1 =>
        (rec.term loc b r1 st1).bind fun (b', r2) st2 =>
          match a', b' with
          | .Fields fa, .Fields fb =>
            (rec.unifyFieldsEq loc fa fb st2).bind fun _ st3 =>
              .ok (.RowEq (.Fields fa) (.Fields fb), r2) st3
          | a', b' => .ok (.RowEq a' b', r2) st2
    | .Object a =>
      (rec.term loc a r st).bind fun (a', r1) st1 => .ok (.Object a', r1) st1
    | .Obj a =>
      (rec.term loc a r st).bind fun (a', r1) st1 => .ok (.Obj a', r1) st1
    | .Concat a b =>
      (rec.term loc a r st).bind fun (a', r1) st1 =>
        (rec.term loc b r1 st1).bind fun (b', r2) st2 =>
          match a', b' with
          | .Obj x, .Obj y =>
            (match x, y with
             | .Fields fx, .Fields fy => .ok (.Obj (.Fields (concatFields fx fy)), r2) st2
             | x, y => .ok (.Concat (.Obj x) (.Obj y), r2) st2)
          | a', b' => .ok (.Concat a' b', r2) st2
    | .Access a n =>
      (rec.term loc a r st).bind fun (a', r1) st1 =>
        match a' with
        | .Obj x =>
          (match x with
           | .Fields fs =>
             (match lookupField fs n with
              | some v => .ok (v, r1) st1
              | none => .crash)
           | x => .ok (.Access (.Obj x) n, r1) st1)
        | a' => .ok (.Access a' n, r1) st1
    | .Downcast a f =>
      (rec.term loc a r st).bind fun (a', r1) st1 =>
        match a', f with
        | .Obj o, .Fields y =>
          (match o with
           | .Fields x =>
             (match pickFields y x with
              | some m =>
                .ok (.Obj (.Fields (m.foldl (fun acc pr => insertField pr.1 pr.2 acc) [])), r1) st1
              | none => .crash)
           | o => .ok (.Downcast (.Obj o) (.Fields y), r1) st1)
        | a', f => .ok (.Downcast a' f, r1) st1
    | .Enum a =>
      (rec.term loc a r st).bind fun (a', r1) st1 => .ok (.Enum a', r1) st1
    | .Variant a =>
      (rec.term loc a r st).bind fun (a', r1) st1 => .ok (.Variant a', r1) st1
    | .Upcast a f =>
      (rec.term loc a r st).bind fun (a', r1) st1 =>
        match a', f with
        | .Variant o, .Fields y =>
          (match o with
           | .Fields x =>
             (match pickFields x y with
              | some m =>
                .ok (.Variant (.Fields (m.foldl (fun acc pr => insertField pr.1 pr.2 acc) [])), r1) st1
              | none => .crash)
           | o => .ok (.Upcast (.Variant o) (.Fields y), r1) st1)
        | a', f => .ok (.Upcast a' f, r1) st1
    | .Switch a cs =>
      (rec.term loc a r st).bind fun (a', r1) st1 =>
        match a' with
        | .Variant rv =>
          (match rv with
           | .Fields fs =>
             (match fs with
              | [] => .crash
              | (n, x) :: _ =>
                match lookupCase cs n with
                | none => .crash
                | some (v, tmc) => withRho rec loc [(v, x)] tmc r1 st1)
           | rv => .ok (.Switch rv cs, r1) st1)
        | a' => .ok (.Switch a' cs, r1) st1
    | .ImplementsOf a i => implementsOfCase rec loc a i r st
    | .Find ty i f => findCase rec loc ty i f r st
    | .Univ => .ok (.Univ, r) st
    | .Unit => .ok (.Unit, r) st
    | .TT => .ok (.TT, r) st
    | .Boolean => .ok (.Boolean, r) st
    | .False => .ok (.False, r) st
    | .True => .ok (.True, r) st
    | .String => .ok (.String, r) st
    | .Str s => .ok (.Str s, r) st
    | .Number => .ok (.Number, r) st
    | .Num raw v => .ok (.Num raw v, r) st
    | .BigInt => .ok (.BigInt, r) st
    | .Big s => .ok (.Big s, r) st
    | .Row => .ok (.Row, r) st
    | .RowSat => .ok (.RowSat, r) st
    | .RowRefl => .ok (.RowRefl, r) st
    | .Vptr c ts => .ok (.Vptr c ts, r) st
    | .ImplementsSat => .ok (.ImplementsSat, r) st

/-- `Unifier::unify_impl` (unify.rs, one recursion level). -/
def unifyF (rec : Interp) : Loc → Term → Term → St → NRes Unit :=
  fun loc lhs rhs st =>
    match lhs, rhs with
    | .MetaRef _ v _, rhs => rec.solve loc v rhs st
    | lhs, .MetaRef _ v _ => rec.solve loc v lhs st
    | .Ref a, .Ref b =>
      if a.id = b.id then .ok () st
      else
        match sigmaGet st.sigma a with
        | some d =>
          (match toTerm d a st.ctr with
           | none => .crash
           | some (t, c') => rec.unify loc t (.Ref b) { st with ctr := c' })
        | none => .err (.NonUnifiable (.Ref a) (.Ref b) loc) st
    | .Ref a, b =>
      (match sigmaGet st.sigma a with
       | some d =>
         (match toTerm d a st.ctr with
          | none => .crash
          | some (t, c') => rec.unify loc t b { st with ctr := c' })
       | none => .err (.NonUnifiable (.Ref a) b loc) st)
    | a, .Ref b =>
      (match sigmaGet st.sigma b with
       | some d =>
         (match toTerm d b st.ctr with
          | none => .crash
          | some (t, c') => rec.unify loc a t { st with ctr := c' })
       | none => .err (.NonUnifiable a (.Ref b) loc) st)
    | .Qualified _ a, .Qualified _ b =>
      if a.id = b.id then .ok () st
      else
        match sigmaGet st.sigma a with
        | some d =>
          (match toTerm d a st.ctr with
           | none => .crash
           | some (t, c') => rec.unify loc t rhs { st with ctr := c' })
        | none => .err (.NonUnifiable lhs rhs loc) st
    | .Qualified _ a, b =>
      (match sigmaGet st.sigma a with
       | some d =>
         (match toTerm d a st.ctr with
          | none => .crash
          | some (t, c') => rec.unify loc t b { st with ctr := c' })
       | none => .err (.NonUnifiable lhs b loc) st)
    | a, .Qualified _ b =>
      (match sigmaGet st.sigma b with
       | some d =>
         (match toTerm d b st.ctr with
          | none => .crash
          | some (t, c') => rec.unify loc a t { st with ctr := c' })
       | none => .err (.NonUnifiable a rhs loc) st)
    | .Let p a b, .Let q x y =>
      (rec.unify loc p.typ q.typ st).bind fun _ st1 =>
        (rec.unify loc a x st1).bind fun _ st2 =>
          rec.unify loc b y st2
    | .Pi p a, .Pi q b =>
      (rec.unify loc p.typ q.typ st).bind fun _ st1 =>
        (withRho rec loc [(q.var, .Ref p.var)] b [] st1).bind fun (b', _) st2 =>
          rec.unify loc a b' st2
    | .Lam p a, .Lam q b =>
      (applyLoop rec loc (.Lam q b) [.Ref p.var] [] st).bind fun (b', _) st1 =>
        rec.unify loc a b' st1
    | .App f x, .App g y =>
      (rec.unify loc f g st).bind fun _ st1 =>
        rec.unify loc x y st1
    | .Sigma p a, .Sigma q b =>
      (rec.unify loc p.typ q.typ st).bind fun _ st1 =>
        (withRho rec loc [(q.var, .Ref p.var)] b [] st1).bind fun (b', _) st2 =>
          rec.unify loc a b' st2
    | .Tuple a b, .Tuple x y =>
      (rec.unify loc a x st).bind fun _ st1 =>
        rec.unify loc b y st1
    | .TupleLet p q a b, .TupleLet p2 q2 x y =>
      (withRho rec loc [(p2.var, .Ref p.var), (q2.var, .Ref q.var)] y [] st).bind
        fun (y', _) st1 =>
          (rec.unify loc a x st1).bind fun _ st2 =>
            rec.unify loc b y' st2
    | .UnitLet a b, .UnitLet x y =>
      (rec.unify loc a x st).bind fun _ st1 =>
        rec.unify loc b y st1
    | .If a b c, .If x y z =>
      (rec.unify loc a x st).bind fun _ st1 =>
        (rec.unify loc b y st1).bind fun _ st2 =>
          rec.unify loc c z st2
    | .Fields a, .Fields b => rec.unifyFieldsEq loc a b st
    | .Object a, .Object b => rec.unify loc a b st
    | .Obj a, .Obj b => rec.unify loc a b st
    | .Enum a, .Enum b => rec.unify loc a b st
    | .Variant a, .Variant b => rec.unify loc a b st
    | .Str a, .Str b =>
      if a = b then .ok () st else .err (.NonUnifiable lhs rhs loc) st
    | .Num ra va, .Num rb vb =>
      if ra = rb ∧ va = vb then .ok () st else .err (.NonUnifiable lhs rhs loc) st
    | .Big a, .Big b =>
      if a = b then .ok () st else .err (.NonUnifiable lhs rhs loc) st
    | .Vptr a _, .Vptr b _ =>
      if a.id = b.id then .ok () st else .err (.NonUnifiable lhs rhs loc) st
    | .Univ, .Univ => .ok () st
    | .Unit, .Unit => .ok () st
    | .TT, .TT => .ok () st
    | .Boolean, .Boolean => .ok () st
    | .False, .False => .ok () st
    | .True, .True => .ok () st
    | .String, .String => .ok () st
    | .Number, .Number => .ok () st
    | .BigInt, .BigInt => .ok () st
    | .Row, .Row => .ok () st
    | lhs, rhs => .err (.NonUnifiable lhs rhs loc) st

/-- `Unifier::solve` (unify.rs lines 135-159, one recursion level). -/
def solveF (rec : Interp) : Loc → Var → Term → St → NRes Unit :=
  fun loc v tm st =>
    match sigmaGet st.sigma v with
    | none => .crash
    | some d =>
      match d.body with
      | .Meta k s =>
        match s with
        | some _ => .ok () st
        | none =>
          let st' : St := { st with sigma := sigmaInsert st.sigma v.id { d with body := .Meta k (some tm) } }
          match tm with
          | .Ref rv =>
            (match d.tele.find? (fun p => p.var.id = rv.id) with
             | some p => rec.unify loc d.ret p.typ st'
             | none => .crash)
          | _ => .ok () st'
      | _ => .crash

/-- `Unifier::unify_fields_ord` (unify.rs lines 161-176). -/
def unifyFieldsOrdF (rec : Interp) : Loc → FieldMap → FieldMap → St → NRes Unit :=
  fun loc small big st =>
    unifyFieldsOrdLoop rec loc small small big st

/-- `Unifier::unify_fields_eq` (unify.rs lines 178-191). -/
def unifyFieldsEqF (rec : Interp) : Loc → FieldMap → FieldMap → St → NRes Unit :=
  fun loc a b st =>
    if a.length ≠ b.length then .err (.NonUnifiable (.Fields a) (.Fields b) loc) st
    else unifyFieldsEqLoop rec loc a a b st

/-- `Normalizer::check_constraint` (normalize.rs lines 301-319). -/
def checkConstraintF (rec : Interp) : Loc → Term → Var → St → NRes Unit :=
  fun loc x i st =>
    match sigmaGet st.sigma i with
    | none => .crash
    | some d =>
      match d.body with
      | .Interface _ ims => checkConstraintLoop rec loc x ims st
      | _ => .crash

/-- `Normalizer::find_implementation` (normalize.rs lines 321-348). -/
def findImplementationF (rec : Interp) : Loc → Term → Var → Var → St → NRes Term :=
  fun loc ty i f st =>
    match sigmaGet st.sigma i with
    | none => .crash
    | some d =>
      match d.body with
      | .Interface _ ims => findImplLoop rec loc ty f ims.reverse st
      | _ => .crash


/-- One unfolding step of the whole normalizer/unifier recursion: each
field is a literal transcription of the corresponding Rust method, with
recursive calls going through `rec`. -/
def interpStep (rec : Interp) : Interp where
  term := termF rec
  unify := unifyF rec
  solve := solveF rec
  unifyFieldsOrd := unifyFieldsOrdF rec
  unifyFieldsEq := unifyFieldsEqF rec
  checkConstraint := checkConstraintF rec
  findImplementation := findImplementationF rec

/-- The fuel-exhausted interpreter. -/
def interpZero : Interp where
  term := fun _ _ _ _ => .timeout
  unify := fun _ _ _ _ => .timeout
  solve := fun _ _ _ _ => .timeout
  unifyFieldsOrd := fun _ _ _ _ => .timeout
  unifyFieldsEq := fun _ _ _ _ => .timeout
  checkConstraint := fun _ _ _ _ => .timeout
  findImplementation := fun _ _ _ _ _ => .timeout

/-- The tied recursion: `interp n` unfolds the mutual Rust recursion `n`
levels deep. -/
def interp : Nat → Interp
  | 0 => interpZero
  | n + 1 => interpStep (interp n)

@[simp] theorem interp_succ (n : Nat) : interp (n + 1) = interpStep (interp n) := rfl

/-- `Normalizer::term` at a given fuel. -/
def term (fuel : Nat) : Loc → Term → Rho → St → NRes (Term × Rho) :=
  (interp fuel).term

/-- `Unifier::unify` at a given fuel. -/
def unify (fuel : Nat) : Loc → Term → Term → St → NRes Unit :=
  (interp fuel).unify

/-- `Unifier::solve` at a given fuel. -/
def solve (fuel : Nat) : Loc → Var → Term → St → NRes Unit :=
  (interp fuel).solve

/-- `Unifier::unify_fields_ord` at a given fuel. -/
def unifyFieldsOrd (fuel : Nat) : Loc → FieldMap → FieldMap → St → NRes Unit :=
  (interp fuel).unifyFieldsOrd

/-- `Unifier::unify_fields_eq` at a given fuel. -/
def unifyFieldsEq (fuel : Nat) : Loc → FieldMap → FieldMap → St → NRes Unit :=
  (interp fuel).unifyFieldsEq

/-- `Normalizer::check_constraint` at a given fuel. -/
def checkConstraint (fuel : Nat) : Loc → Term → Var → St → NRes Unit :=
  (interp fuel).checkConstraint

/-- `Normalizer::find_implementation` at a given fuel. -/
def findImplementation (fuel : Nat) : Loc → Term → Var → Var → St → NRes Term :=
  (interp fuel).findImplementation


/-! ## Substitution

The spec states the beta-law of normalization through the meta-level
substitution `b[p.var ↦ x]`.  The following is that substitution,
modelled from the spec notation: capture-naive replacement of free
occurrences of one variable, stopping below a binder of the same
identity (binders are unique by construction in the source). -/

mutual

/-- Substitution of `x` for the free occurrences of the variable with
identity `i` (the spec notation `b[p.var ↦ x]`). -/
def substGo (i : Nat) (x : Term) : Term → Term
  | .Ref v => if v.id = i then x else .Ref v
  | .MetaRef k v sp => .MetaRef k v (substSp i x sp)
  | .Undef v => .Undef v
  | .Qualified mo v => .Qualified mo v
  | .Let p a b =>
    .Let ⟨p.var, p.info, substGo i x p.typ⟩ (substGo i x a)
      (if p.var.id = i then b else substGo i x b)
  | .Pi p b =>
    .Pi ⟨p.var, p.info, substGo i x p.typ⟩ (if p.var.id = i then b else substGo i x b)
  | .Lam p b =>
    .Lam ⟨p.var, p.info, substGo i x p.typ⟩ (if p.var.id = i then b else substGo i x b)
  | .App f a => .App (substGo i x f) (substGo i x a)
  | .Sigma p b =>
    .Sigma ⟨p.var, p.info, substGo i x p.typ⟩ (if p.var.id = i then b else substGo i x b)
  | .Tuple a b => .Tuple (substGo i x a) (substGo i x b)
  | .TupleLet p q a b =>
    .TupleLet ⟨p.var, p.info, substGo i x p.typ⟩ ⟨q.var, q.info, substGo i x q.typ⟩
      (substGo i x a)
      (if p.var.id = i ∨ q.var.id = i then b else substGo i x b)
  | .UnitLet a b => .UnitLet (substGo i x a) (substGo i x b)
  | .If p t e => .If (substGo i x p) (substGo i x t) (substGo i x e)
  | .Univ => .Univ
  | .Unit => .Unit
  | .TT => .TT
  | .Boolean => .Boolean
  | .False => .False
  | .True => .True
  | .String => .String
  | .Str s => .Str s
  | .Number => .Number
  | .Num r v => .Num r v
  | .BigInt => .BigInt
  | .Big s => .Big s
  | .Row => .Row
  | .Fields fs => .Fields (substFields i x fs)
  | .Combine a b => .Combine (substGo i x a) (substGo i x b)
  | .RowOrd a d b => .RowOrd (substGo i x a) d (substGo i x b)
  | .RowEq a b => .RowEq (substGo i x a) (substGo i x b)
  | .RowSat => .RowSat
  | .RowRefl => .RowRefl
  | .Object r => .Object (substGo i x r)
  | .Obj a => .Obj (substGo i x a)
  | .Concat a b => .Concat (substGo i x a) (substGo i x b)
  | .Access a n => .Access (substGo i x a) n
  | .Downcast a f => .Downcast (substGo i x a) (substGo i x f)
  | .Enum r => .Enum (substGo i x r)
  | .Variant r => .Variant (substGo i x r)
  | .Upcast a f => .Upcast (substGo i x a) (substGo i x f)
  | .Switch a cs => .Switch (substGo i x a) (substCases i x cs)
  | .ImplementsOf a iv => .ImplementsOf (substGo i x a) iv
  | .ImplementsSat => .ImplementsSat
  | .Find ty iv f => .Find (substGo i x ty) iv f
  | .Vptr cls ts => .Vptr cls (substList i x ts)

/-- Substitution over a metavariable spine. -/
def substSp (i : Nat) (x : Term) : List (ParamInfo × Term) → List (ParamInfo × Term)
  | [] => []
  | (pi, t) :: rest => (pi, substGo i x t) :: substSp i x rest

/-- Substitution over field-map values. -/
def substFields (i : Nat) (x : Term) : List (Name × Term) → List (Name × Term)
  | [] => []
  | (n, t) :: rest => (n, substGo i x t) :: substFields i x rest

/-- Substitution over switch cases (case variables bind). -/
def substCases (i : Nat) (x : Term) : List (Name × Var × Term) → List (Name × Var × Term)
  | [] => []
  | (n, v, t) :: rest =>
    (n, v, if v.id = i then t else substGo i x t) :: substCases i x rest

/-- Substitution over a term list. -/
def substList (i : Nat) (x : Term) : List Term → List Term
  | [] => []
  | t :: rest => substGo i x t :: substList i x rest

end

/-- Substitution entry point, the spec notation `b[v ↦ x]`. -/
def subst (v : Var) (x : Term) (b : Term) : Term :=
  substGo v.id x b


/-! ## Resolver

Shallow embedding of `theory/conc/resolve.rs` over the surface syntax of
`theory/conc/data.rs`.  The in-tree `resolve.rs` is the revision whose
state is a single `HashMap<String, Var>` and whose duplicate-binding
error is `DuplicateField(name, loc)`. -/

/-- Argument mode at a call site (`ArgInfo` in `theory/conc/data.rs`). -/
inductive ArgInfo where
  | UnnamedExplicit
  | UnnamedImplicit
  | NamedImplicit (n : Name)
deriving DecidableEq, Repr

/-- Surface expressions (`Expr` in `theory/conc/data.rs`). -/
inductive Expr where
  | Unresolved (l : Loc) (v : Var)
  | Resolved (l : Loc) (v : Var)
  | Hole (l : Loc)
  | InsertedHole (l : Loc)
  | Let (l : Loc) (v : Var) (typ : Option Expr) (a : Expr) (b : Expr)
  | Univ (l : Loc)
  | Pi (l : Loc) (p : Param Expr) (b : Expr)
  | TupledLam (l : Loc) (vars : List Expr) (b : Expr)
  | Lam (l : Loc) (v : Var) (b : Expr)
  | App (l : Loc) (f : Expr) (i : ArgInfo) (x : Expr)
  | Sigma (l : Loc) (p : Param Expr) (b : Expr)
  | Tuple (l : Loc) (a : Expr) (b : Expr)
  | TupleLet (l : Loc) (x : Var) (y : Var) (a : Expr) (b : Expr)
  | Unit (l : Loc)
  | TT (l : Loc)
  | UnitLet (l : Loc) (a : Expr) (b : Expr)
  | Boolean (l : Loc)
  | False (l : Loc)
  | True (l : Loc)
  | If (l : Loc) (p : Expr) (t : Expr) (e : Expr)
  | String (l : Loc)
  | Str (l : Loc) (s : Name)
  | Number (l : Loc)
  | Num (l : Loc) (s : Name)
  | BigInt (l : Loc)
  | Big (l : Loc) (s : Name)
  | Row (l : Loc)
  | Fields (l : Loc) (fs : List (Name × Expr))
  | Combine (l : Loc) (a : Expr) (b : Expr)
  | RowOrd (l : Loc) (a : Expr) (d : Dir) (b : Expr)
  | RowSat (l : Loc)
  | RowEq (l : Loc) (a : Expr) (b : Expr)
  | RowRefl (l : Loc)
  | Object (l : Loc) (o : Expr)
  | Obj (l : Loc) (o : Expr)
  | Concat (l : Loc) (a : Expr) (b : Expr)
  | Access (l : Loc) (n : Name)
  | Cast (l : Loc) (a : Expr)
  | Enum (l : Loc) (o : Expr)
  | Variant (l : Loc) (n : Name) (a : Expr)
deriving Repr

/-- Location of an expression (`Expr::loc`). -/
def Expr.loc : Expr → Loc
  | .Unresolved l _ => l
  | .Resolved l _ => l
  | .Hole l => l
  | .InsertedHole l => l
  | .Let l _ _ _ _ => l
  | .Univ l => l
  | .Pi l _ _ => l
  | .TupledLam l _ _ => l
  | .Lam l _ _ => l
  | .App l _ _ _ => l
  | .Sigma l _ _ => l
  | .Tuple l _ _ => l
  | .TupleLet l _ _ _ _ => l
  | .Unit l => l
  | .TT l => l
  | .UnitLet l _ _ => l
  | .Boolean l => l
  | .False l => l
  | .True l => l
  | .If l _ _ _ => l
  | .String l => l
  | .Str l _ => l
  | .Number l => l
  | .Num l _ => l
  | .BigInt l => l
  | .Big l _ => l
  | .Row l => l
  | .Fields l _ => l
  | .Combine l _ _ => l
  | .RowOrd l _ _ _ => l
  | .RowSat l => l
  | .RowEq l _ _ => l
  | .RowRefl l => l
  | .Object l _ => l
  | .Obj l _ => l
  | .Concat l _ _ => l
  | .Access l _ => l
  | .Cast l _ => l
  | .Enum l _ => l
  | .Variant l _ _ => l

/-- The resolver's active name map (`Resolver(HashMap<String, Var>)`),
keyed by display name. -/
abbrev NameMap := List (Name × Var)

/-- Lookup in the name map (`self.0.get(name)`). -/
def nmGet (m : NameMap) (n : Name) : Option Var :=
  match m with
  | [] => none
  | (k, v) :: rest => if k = n then some v else nmGet rest n

/-- Insert into the name map, returning the previously bound variable as
a `HashMap::insert` does. -/
def nmInsert (m : NameMap) (n : Name) (v : Var) : Option Var × NameMap :=
  match m with
  | [] => (none, [(n, v)])
  | (k, w) :: rest =>
    if k = n then (some w, (k, v) :: rest)
    else
      let (old, rest') := nmInsert rest n v
      (old, (k, w) :: rest')

/-- Remove from the name map (`self.0.remove(name)`). -/
def nmRemove (m : NameMap) (n : Name) : NameMap :=
  match m with
  | [] => []
  | (k, w) :: rest => if k = n then rest else (k, w) :: nmRemove rest n

/-- Name set used for duplicate detection (`RawNameSet`); `insert`
returns `false` when the name was already present. -/
def rnsInsert (s : List Name) (n : Name) : Bool × List Name :=
  if s.contains n then (false, s) else (true, n :: s)

/-- Resolver state: the active name map plus the fresh-identity counter
backing `Var::tupled()` and `Var::untupled_right()` (each call mints a
new identity in the source). -/
structure RSt where
  map : NameMap
  ctr : Nat
deriving Repr

/-- Outcome type of the resolver. -/
abbrev RRes (alpha : Type) := Res RSt alpha

/-- The recursive entry point of the resolver, tied by fuel below. -/
structure RInterp where
  expr : Expr → RSt → RRes Expr

/-- The compiler-synthesized aggregate variable (`Var::tupled()`). -/
def tupledVar (c : Nat) : Var :=
  ⟨c, "_tupled"⟩

/-- The untupled projection variable (`Var::untupled_right`). -/
def untupledRight (c : Nat) (v : Var) : Var :=
  ⟨c, "_untupled_" ++ v.name⟩

/-- First loop of `Expr::wrap_tuple_lets`: fresh untupled names for the
reversed parameter list (`unreachable!` on a non-`Unresolved` entry). -/
def mkUntupled (c : Nat) : List Expr → Option (List Expr × Nat)
  | [] => some ([], c)
  | .Unresolved l r :: rest =>
    match mkUntupled (c + 1) rest with
    | none => none
    | some (us, c') => some (.Unresolved l (untupledRight c r) :: us, c')
  | _ => none

/-- Second loop of `Expr::wrap_tuple_lets`: fold the reversed parameters
into nested `TupleLet` bindings. -/
def wrapLoop : List Expr → List Expr → Expr → Option Expr
  | [], _, w => some w
  | v :: rest, us, w =>
    match v, us with
    | .Unresolved lo lhs, .Unresolved _ rhs :: utail =>
      match utail with
      | [] => none
      | tm :: _ => wrapLoop rest utail (.TupleLet lo lhs rhs tm w)
    | _, _ => none

/-- Desugaring of tuple-parameter lambdas (`Expr::wrap_tuple_lets` in
`theory/conc/data.rs`); `none` models the `unreachable!`/`unwrap`
panics.  The in-tree `resolve.rs` calls it without the leading location
argument (revision skew); we pass the lambda's location. -/
def wrapTupleLets (loc : Loc) (x : Var) (vars : List Expr) (b : Expr) (c : Nat) :
    Option (Expr × Nat) :=
  match mkUntupled c vars.reverse with
  | none => none
  | some (us, c') =>
    match wrapLoop vars.reverse (us ++ [.Unresolved loc x]) b with
    | none => none
    | some w => some (w, c')

/-- The push half of `Resolver::bodied`: insert each variable, recording
the shadowed bindings. -/
def pushVars : List Var → NameMap → List (Option Var) × NameMap
  | [], m => ([], m)
  | v :: rest, m =>
    let (old, m1) := nmInsert m v.name v
    let (os, m2) := pushVars rest m1
    (old :: os, m2)

/-- The restore half of `Resolver::bodied`: reinsert each shadowed
binding, remove the rest. -/
def restoreVars : List Var → List (Option Var) → NameMap → NameMap
  | [], _, m => m
  | v :: vs, olds, m =>
    match olds with
    | [] => m
    | some o :: os => restoreVars vs os (nmInsert m o.name o).2
    | none :: os => restoreVars vs os (nmRemove m v.name)

/-- `Resolver::bodied`: bind the variables, resolve the body, restore
the shadowed bindings.  The restore loop runs only after a successful
resolution because the `?` on `self.expr(e)` returns early. -/
def bodied (rec : RInterp) (vars : List Var) (e : Expr) (st : RSt) : RRes Expr :=
  let (olds, m1) := pushVars vars st.map
  match rec.expr e { st with map := m1 } with
  | .ok ret st1 => .ok ret { st1 with map := restoreVars vars olds st1.map }
  | .err er st1 => .err er st1
  | .crash => .crash
  | .timeout => .timeout

/-- `Resolver::param`: resolve the parameter type. -/
def resolveParam (rec : RInterp) (p : Param Expr) (st : RSt) : RRes (Param Expr) :=
  (rec.expr p.typ st).bind fun ty st1 => .ok ⟨p.var, p.info, ty⟩ st1

/-- The `for (f, typ) in fields` loop of the `Fields` case of
`Resolver::expr`: duplicate check first, then resolution of the value. -/
def resolveFieldsLoop (rec : RInterp) (loc : Loc) (fs : List (Name × Expr))
    (names : List Name) (st : RSt) : RRes (List (Name × Expr)) :=
  match fs with
  | [] => .ok [] st
  | (f, typ) :: rest =>
    let (isNew, names1) := rnsInsert names f
    if isNew then
      (rec.expr typ st).bind fun ty st1 =>
        (resolveFieldsLoop rec loc rest names1 st1).bind fun rest1 st2 =>
          .ok ((f, ty) :: rest1) st2
    else .err (.DuplicateField f loc) st

/-- `Resolver::expr` (resolve.rs lines 92-160, one recursion level);
the final catch-all arm returns the expression unchanged, as the
`e => e` arm of the source. -/
def exprF (rec : RInterp) : Expr → RSt → RRes Expr :=
  fun e st =>
    match e with
    | .Unresolved loc r =>
      (match nmGet st.map r.name with
       | some v => .ok (.Resolved loc v) st
       | none => .err (.UnresolvedVar loc) st)
    | .Let loc x typ a b =>
      (match typ with
       | some ty => (rec.expr ty st).bind fun ty1 st1 => .ok (some ty1) st1
       | none => .ok none st).bind fun ty1 st1 =>
        (rec.expr a st1).bind fun a1 st2 =>
          (bodied rec [x] b st2).bind fun b1 st3 =>
            .ok (.Let loc x ty1 a1 b1) st3
    | .Pi loc p b =>
      (resolveParam rec p st).bind fun p1 st1 =>
        (bodied rec [p.var] b st1).bind fun b1 st2 =>
          .ok (.Pi loc p1 b1) st2
    | .TupledLam loc vars b =>
      let x := tupledVar st.ctr
      (match wrapTupleLets loc x vars b (st.ctr + 1) with
       | none => .crash
       | some (wrapped, c1) =>
         bodied rec [x] (.Lam loc (tupledVar c1) wrapped) { st with ctr := c1 + 1 })
    | .Lam loc x b =>
      (bodied rec [x] b st).bind fun b1 st1 => .ok (.Lam loc x b1) st1
    | .App loc f i x =>
      (rec.expr f st).bind fun f1 st1 =>
        (rec.expr x st1).bind fun x1 st2 =>
          .ok (.App loc f1 i x1) st2
    | .Sigma loc p b =>
      (resolveParam rec p st).bind fun p1 st1 =>
        (bodied rec [p.var] b st1).bind fun b1 st2 =>
          .ok (.Sigma loc p1 b1) st2
    | .Tuple loc a b =>
      (rec.expr a st).bind fun a1 st1 =>
        (rec.expr b st1).bind fun b1 st2 =>
          .ok (.Tuple loc a1 b1) st2
    | .TupleLet loc x y a b =>
      (rec.expr a st).bind fun a1 st1 =>
        (bodied rec [x, y] b st1).bind fun b1 st2 =>
          .ok (.TupleLet loc x y a1 b1) st2
    | .UnitLet loc a b =>
      (rec.expr a st).bind fun a1 st1 =>
        (rec.expr b st1).bind fun b1 st2 =>
          .ok (.UnitLet loc a1 b1) st2
    | .If loc p t el =>
      (rec.expr p st).bind fun p1 st1 =>
        (rec.expr t st1).bind fun t1 st2 =>
          (rec.expr el st2).bind fun e1 st3 =>
            .ok (.If loc p1 t1 e1) st3
    | .Fields loc fs =>
      (resolveFieldsLoop rec loc fs [] st).bind fun fs1 st1 =>
        .ok (.Fields loc fs1) st1
    | .Combine loc a b =>
      (rec.expr a st).bind fun a1 st1 =>
        (rec.expr b st1).bind fun b1 st2 =>
          .ok (.Combine loc a1 b1) st2
    | .RowOrd loc a d b =>
      (rec.expr a st).bind fun a1 st1 =>
        (rec.expr b st1).bind fun b1 st2 =>
          .ok (.RowOrd loc a1 d b1) st2
    | .RowEq loc a b =>
      (rec.expr a st).bind fun a1 st1 =>
        (rec.expr b st1).bind fun b1 st2 =>
          .ok (.RowEq loc a1 b1) st2
    | .Object loc o =>
      (rec.expr o st).bind fun o1 st1 => .ok (.Object loc o1) st1
    | e => .ok e st


/-- One unfolding step of `Resolver::expr`. -/
def rexprStep (rec : RInterp) : RInterp where
  expr := exprF rec

/-- The fuel-exhausted resolver. -/
def rinterpZero : RInterp where
  expr := fun _ _ => .timeout

/-- The tied resolver recursion. -/
def rinterp : Nat → RInterp
  | 0 => rinterpZero
  | n + 1 => rexprStep (rinterp n)

@[simp] theorem rinterp_succ (n : Nat) : rinterp (n + 1) = rexprStep (rinterp n) := rfl

/-- `Resolver::expr` at a given fuel. -/
def resolveExpr (fuel : Nat) : Expr → RSt → RRes Expr :=
  (rinterp fuel).expr

/-- `Resolver::bodied` at a given fuel. -/
def resolveBodied (fuel : Nat) : List Var → Expr → RSt → RRes Expr :=
  bodied (rinterp fuel)


/-! ## Elaborator fragment

Shallow embedding of the Γ-handling core of `theory/conc/elab.rs`:
`guarded_check` and `guarded_infer` verbatim, together with the subset
of `check`/`infer` cases needed to drive them (`Let`, `Lam`, `Tuple`,
`TupleLet`, `UnitLet`, `If`, the subsumption fallback; `Resolved`, `Pi`
and the literal atoms on the infer side).  The remaining `Expr` cases
(holes, applications, rows, the class/interface machinery) are outside
the embedded fragment and are mapped to `Res.crash`; no claim depends
on them. -/

/-- Modelled from the spec: `Def::to_type()` is the Pi of the telescope
over the return type. -/
def toType (d : Def) : Term :=
  Term.pi d.tele d.ret

/-- The local typing context Γ (`Gamma = HashMap<Var, Box<Term>>`). -/
abbrev Gamma := List (Nat × Term)

/-- Lookup in Γ (`self.gamma.get(&v)`). -/
def gammaGet (g : Gamma) (v : Var) : Option Term :=
  match g with
  | [] => none
  | (k, t) :: rest => if k = v.id then some t else gammaGet rest v

/-- Insert into Γ (`self.gamma.insert(v, typ)`), replacing any existing
binding of the same identity. -/
def gammaInsert (v : Var) (t : Term) (g : Gamma) : Gamma :=
  match g with
  | [] => [(v.id, t)]
  | (k, u) :: rest =>
    if k = v.id then (k, t) :: rest else (k, u) :: gammaInsert v t rest

/-- Remove from Γ (`self.gamma.remove(&v)`). -/
def gammaRemove (v : Var) (g : Gamma) : Gamma :=
  match g with
  | [] => []
  | (k, u) :: rest => if k = v.id then rest else (k, u) :: gammaRemove v rest

/-- Elaborator state: Σ, Γ and the fresh-identity counter. -/
structure ESt where
  sigma : Sigma
  gamma : Gamma
  ctr : Nat
deriving Repr

/-- Outcome type of the elaborator. -/
abbrev ERes (alpha : Type) := Res ESt alpha

/-- Run `Normalizer::new(&mut self.sigma, loc).term(t)` from elaborator
state (the normalizer borrows Σ and gets a fresh empty ρ). -/
def elabNorm (nf : Nat) (loc : Loc) (t : Term) (st : ESt) : ERes Term :=
  match term nf loc t [] ⟨st.sigma, st.ctr⟩ with
  | .ok (t1, _) s1 => .ok t1 { st with sigma := s1.sigma, ctr := s1.ctr }
  | .err e s1 => .err e { st with sigma := s1.sigma, ctr := s1.ctr }
  | .crash => .crash
  | .timeout => .timeout

/-- Run `Normalizer::new(..).with(rho, t)` from elaborator state. -/
def elabNormWith (nf : Nat) (loc : Loc) (prs : List (Var × Term)) (t : Term)
    (st : ESt) : ERes Term :=
  match withRho (interp nf) loc prs t [] ⟨st.sigma, st.ctr⟩ with
  | .ok (t1, _) s1 => .ok t1 { st with sigma := s1.sigma, ctr := s1.ctr }
  | .err e s1 => .err e { st with sigma := s1.sigma, ctr := s1.ctr }
  | .crash => .crash
  | .timeout => .timeout

/-- Run `Unifier::new(&mut self.sigma, loc).unify(a, b)` from elaborator
state. -/
def elabUnify (nf : Nat) (loc : Loc) (a b : Term) (st : ESt) : ERes Unit :=
  match unify nf loc a b ⟨st.sigma, st.ctr⟩ with
  | .ok u s1 => .ok u { st with sigma := s1.sigma, ctr := s1.ctr }
  | .err e s1 => .err e { st with sigma := s1.sigma, ctr := s1.ctr }
  | .crash => .crash
  | .timeout => .timeout

/-- Hole-insertable expected types (`Elaborator::is_hole_insertable`):
anything but an implicit Pi. -/
def isHoleInsertable : Term → Bool
  | .Pi p _ => p.info ≠ .Implicit
  | _ => true

/-- An inserted-hole application (`Expr::holed_app`). -/
def holedApp (f : Expr) : Expr :=
  .App f.loc f .UnnamedImplicit (.InsertedHole f.loc)

/-- Iterated hole insertion (`(0..n).fold(f_e, |e, _| holed_app(e))`). -/
def holedAppN : Nat → Expr → Expr
  | 0, f => f
  | n + 1, f => holedAppN n (holedApp f)

/-- The `holes_to_insert` loop of `Elaborator::app_insert_holes`: count
the implicit parameters preceding the named one; a non-Pi head is
`unreachable!` (`none`). -/
def holesToInsert (loc : Loc) (name : Name) : Term → Nat → Option (Except Err Nat)
  | .Pi p b, acc =>
    if p.info ≠ .Implicit then some (.error (.UnresolvedImplicitParam name loc))
    else if p.var.name = name then some (.ok acc)
    else holesToInsert loc name b (acc + 1)
  | _, _ => none

/-- `Elaborator::app_insert_holes`. -/
def appInsertHoles (fe : Expr) (i : ArgInfo) (fty : Term) :
    Option (Except Err (Option Expr)) :=
  match fty with
  | .Pi p _ =>
    if p.info = .Implicit then
      match i with
      | .UnnamedExplicit => some (.ok (some (holedApp fe)))
      | .NamedImplicit name =>
        (match holesToInsert fe.loc name fty 0 with
         | none => none
         | some (.error e) => some (.error e)
         | some (.ok 0) => some (.ok none)
         | some (.ok n) => some (.ok (some (holedAppN n fe))))
      | .UnnamedImplicit => some (.ok none)
    else some (.ok none)
  | _ => some (.ok none)

/-- The recursive entry points of the elaborator fragment; the leading
`Nat` of each field is the fuel handed to every normalizer/unifier
invocation. -/
structure EInterp where
  check : Nat → Expr → Term → ESt → ERes Term
  infer : Nat → Expr → Option Term → ESt → ERes (Term × Term)
  guardedCheck : Nat → List (Param Term) → Expr → Term → ESt → ERes Term
  guardedInfer : Nat → List (Param Term) → Expr → Option Term → ESt → ERes (Term × Term)

/-- `Elaborator::guarded_check` (elab.rs lines 677-686): push the
parameters into Γ, elaborate the body, and remove the parameters only
after a successful elaboration (the `?` returns early on error,
skipping the removal loop); removal is `gamma.remove`, which discards
rather than restores a shadowed binding. -/
def guardedCheckF (rec : EInterp) : Nat → List (Param Term) → Expr → Term → ESt → ERes Term :=
  fun nf ps e ty st =>
    let g1 := ps.foldl (fun g p => gammaInsert p.var p.typ g) st.gamma
    match rec.check nf e ty { st with gamma := g1 } with
    | .ok ret st1 => .ok ret { st1 with gamma := ps.foldl (fun g p => gammaRemove p.var g) st1.gamma }
    | .err er st1 => .err er st1
    | .crash => .crash
    | .timeout => .timeout

/-- `Elaborator::guarded_infer` (elab.rs lines 688-702), same shape as
`guarded_check`. -/
def guardedInferF (rec : EInterp) : Nat → List (Param Term) → Expr → Option Term → ESt → ERes (Term × Term) :=
  fun nf ps e hint st =>
    let g1 := ps.foldl (fun g p => gammaInsert p.var p.typ g) st.gamma
    match rec.infer nf e hint { st with gamma := g1 } with
    | .ok ret st1 => .ok ret { st1 with gamma := ps.foldl (fun g p => gammaRemove p.var g) st1.gamma }
    | .err er st1 => .err er st1
    | .crash => .crash
    | .timeout => .timeout

/-- `Elaborator::check_impl` over the embedded fragment. -/
def checkF (rec : EInterp) : Nat → Expr → Term → ESt → ERes Term :=
  fun nf e ty st =>
    match e with
    | .Let _ var typ a b =>
      (match typ with
       | some t =>
         (rec.check nf t .Univ st).bind fun checkedTy st1 =>
           (rec.check nf a checkedTy st1).bind fun tm st2 =>
             .ok (tm, checkedTy) st2
       | none => rec.infer nf a (some ty) st).bind fun tmTyp st1 =>
        let param : Param Term := ⟨var, .Explicit, tmTyp.2⟩
        (rec.guardedCheck nf [param] b ty st1).bind fun body st2 =>
          .ok (.Let param tmTyp.1 body) st2
    | .Lam loc var body =>
      (elabNorm nf loc ty st).bind fun pi st1 =>
        match pi with
        | .Pi typaram tybody =>
          (elabNormWith nf loc [(typaram.var, .Ref var)] tybody st1).bind
            fun bodyType st2 =>
              let param : Param Term := ⟨var, .Explicit, typaram.typ⟩
              (rec.guardedCheck nf [param] body bodyType st2).bind fun checked st3 =>
                .ok (.Lam param checked) st3
        | pi => .err (.ExpectedPi pi loc) st1
    | .Tuple loc a b =>
      (elabNorm nf loc ty st).bind fun sig st1 =>
        match sig with
        | .Sigma typaram tybody =>
          (rec.check nf a typaram.typ st1).bind fun a1 st2 =>
            (elabNormWith nf loc [(typaram.var, a1)] tybody st2).bind fun bodyType st3 =>
              (rec.check nf b bodyType st3).bind fun b1 st4 =>
                .ok (.Tuple a1 b1) st4
        | sig => .err (.ExpectedSigma sig loc) st1
    | .TupleLet _ x y a b =>
      let aloc := a.loc
      (rec.infer nf a (some ty) st).bind fun aty st1 =>
        (elabNorm nf aloc aty.2 st1).bind fun sig st2 =>
          match sig with
          | .Sigma typaram typ =>
            let px : Param Term := ⟨x, .Explicit, typaram.typ⟩
            let py : Param Term := ⟨y, .Explicit, typ⟩
            (rec.guardedCheck nf [px, py] b ty st2).bind fun b1 st3 =>
              .ok (.TupleLet px py aty.1 b1) st3
          | sig => .err (.ExpectedSigma sig aloc) st2
    | .UnitLet _ a b =>
      (rec.check nf a .Unit st).bind fun a1 st1 =>
        (rec.check nf b ty st1).bind fun b1 st2 =>
          .ok (.UnitLet a1 b1) st2
    | .If _ p t el =>
      (rec.check nf p .Boolean st).bind fun p1 st1 =>
        (rec.check nf t ty st1).bind fun t1 st2 =>
          (rec.check nf el ty st2).bind fun e1 st3 =>
            .ok (.If p1 t1 e1) st3
    | e =>
      let loc := e.loc
      (rec.infer nf e (some ty) st).bind fun inf st1 =>
        (elabNorm nf loc inf.2 st1).bind fun inferred st2 =>
          (elabNorm nf loc ty st2).bind fun expected st3 =>
            let holeStep : ERes (Term × Term) :=
              if isHoleInsertable expected then
                match appInsertHoles e .UnnamedExplicit inferred with
                | none => .crash
                | some (.error er) => .err er st3
                | some (.ok (some fe2)) =>
                  (rec.infer nf fe2 (some ty) st3).bind fun ninf st4 =>
                    .ok (ninf.1, ninf.2) st4
                | some (.ok none) => .ok (inf.1, inferred) st3
              else .ok (inf.1, inferred) st3
            holeStep.bind fun res st4 =>
              (elabUnify nf loc expected res.2 st4).bind fun _ st5 =>
                .ok res.1 st5

/-- `Elaborator::infer_impl` over the embedded fragment. -/
def inferF (rec : EInterp) : Nat → Expr → Option Term → ESt → ERes (Term × Term) :=
  fun nf e hint st =>
    match e with
    | .Resolved _ v =>
      (match gammaGet st.gamma v with
       | some ty => .ok (.Ref v, ty) st
       | none =>
         match sigmaGet st.sigma v with
         | none => .crash
         | some d =>
           match toTerm d v st.ctr with
           | none => .crash
           | some (tm, c1) => .ok (tm, toType d) { st with ctr := c1 })
    | .Pi _ p b =>
      (rec.infer nf p.typ hint st).bind fun pty st1 =>
        let param : Param Term := ⟨p.var, p.info, pty.1⟩
        (rec.guardedInfer nf [param] b hint st1).bind fun bres st2 =>
          .ok (.Pi param bres.1, bres.2) st2
    | .Univ _ => .ok (.Univ, .Univ) st
    | .Unit _ => .ok (.Unit, .Univ) st
    | .TT _ => .ok (.TT, .Unit) st
    | .Boolean _ => .ok (.Boolean, .Univ) st
    | .False _ => .ok (.False, .Boolean) st
    | .True _ => .ok (.True, .Boolean) st
    | .String _ => .ok (.String, .Univ) st
    | .Str _ s => .ok (.Str s, .String) st
    | .Number _ => .ok (.Number, .Univ) st
    | .BigInt _ => .ok (.BigInt, .Univ) st
    | .Row _ => .ok (.Row, .Univ) st
    -- Cases outside the embedded fragment (holes, applications,
    -- literals requiring float parsing, rows, class machinery).
    | _ => .crash


/-- One unfolding step of the elaborator fragment. -/
def einterpStep (rec : EInterp) : EInterp where
  guardedCheck := guardedCheckF rec
  guardedInfer := guardedInferF rec
  check := checkF rec
  infer := inferF rec

/-- The fuel-exhausted elaborator. -/
def einterpZero : EInterp where
  check := fun _ _ _ _ => .timeout
  infer := fun _ _ _ _ => .timeout
  guardedCheck := fun _ _ _ _ _ => .timeout
  guardedInfer := fun _ _ _ _ _ => .timeout

/-- The tied elaborator recursion. -/
def einterp : Nat → EInterp
  | 0 => einterpZero
  | n + 1 => einterpStep (einterp n)

@[simp] theorem einterp_succ (n : Nat) : einterp (n + 1) = einterpStep (einterp n) := rfl

/-- `Elaborator::check` at a given fuel. -/
def elabCheck (fuel : Nat) : Nat → Expr → Term → ESt → ERes Term :=
  (einterp fuel).check

/-- `Elaborator::infer` at a given fuel. -/
def elabInfer (fuel : Nat) : Nat → Expr → Option Term → ESt → ERes (Term × Term) :=
  (einterp fuel).infer

/-- `Elaborator::guarded_check` at a given fuel. -/
def guardedCheck (fuel : Nat) : Nat → List (Param Term) → Expr → Term → ESt → ERes Term :=
  (einterp fuel).guardedCheck

/-- `Elaborator::guarded_infer` at a given fuel. -/
def guardedInfer (fuel : Nat) : Nat → List (Param Term) → Expr → Option Term → ESt → ERes (Term × Term) :=
  (einterp fuel).guardedInfer


/-! ## Unfolding equations

One-step equations for the fuel-tied entry points, used by every proof
below to unfold exactly one recursion level. -/

theorem term_succ (n : Nat) : term (n + 1) = termF (interp n) := rfl

theorem unify_succ (n : Nat) : unify (n + 1) = unifyF (interp n) := rfl

theorem solve_succ (n : Nat) : solve (n + 1) = solveF (interp n) := rfl

theorem unifyFieldsOrd_succ (n : Nat) :
    unifyFieldsOrd (n + 1) = unifyFieldsOrdF (interp n) := rfl

theorem unifyFieldsEq_succ (n : Nat) :
    unifyFieldsEq (n + 1) = unifyFieldsEqF (interp n) := rfl

theorem checkConstraint_succ (n : Nat) :
    checkConstraint (n + 1) = checkConstraintF (interp n) := rfl

theorem findImplementation_succ (n : Nat) :
    findImplementation (n + 1) = findImplementationF (interp n) := rfl

theorem interp_term (n : Nat) : (interp n).term = term n := rfl

theorem interp_unify (n : Nat) : (interp n).unify = unify n := rfl

theorem interp_solve (n : Nat) : (interp n).solve = solve n := rfl

theorem interp_ufo (n : Nat) : (interp n).unifyFieldsOrd = unifyFieldsOrd n := rfl

theorem interp_ufe (n : Nat) : (interp n).unifyFieldsEq = unifyFieldsEq n := rfl

theorem interp_cc (n : Nat) : (interp n).checkConstraint = checkConstraint n := rfl

theorem interp_fi (n : Nat) : (interp n).findImplementation = findImplementation n := rfl

theorem resolveExpr_succ (n : Nat) : resolveExpr (n + 1) = exprF (rinterp n) := rfl

theorem rinterp_expr (n : Nat) : (rinterp n).expr = resolveExpr n := rfl

theorem guardedCheck_succ (n : Nat) : guardedCheck (n + 1) = guardedCheckF (einterp n) := rfl

theorem guardedInfer_succ (n : Nat) : guardedInfer (n + 1) = guardedInferF (einterp n) := rfl

theorem elabCheck_succ (n : Nat) : elabCheck (n + 1) = checkF (einterp n) := rfl

theorem elabInfer_succ (n : Nat) : elabInfer (n + 1) = inferF (einterp n) := rfl

theorem einterp_check (n : Nat) : (einterp n).check = elabCheck n := rfl

theorem einterp_infer (n : Nat) : (einterp n).infer = elabInfer n := rfl

theorem einterp_gc (n : Nat) : (einterp n).guardedCheck = guardedCheck n := rfl

theorem einterp_gi (n : Nat) : (einterp n).guardedInfer = guardedInfer n := rfl


/-! ## Shared concrete material for witnesses and counterexamples -/

/-- A fixed source location for concrete scenarios. -/
def loc0 : Loc := ⟨1, 1, 0, 0⟩

/-! ## Claim C2: first write wins for metavariable solutions -/

/-- C2: once the definition of a metavariable in Σ carries a solution
(`Meta(_, Some(t))`), a subsequent `Unifier::solve` on the same
variable returns success and leaves the whole state unchanged (the
stored solution in particular). -/
theorem solve_first_write_wins (fuel : Nat) (loc : Loc) (v : Var) (tm t : Term)
    (st : St) (d : Def) (k : MetaKind)
    (hget : sigmaGet st.sigma v = some d)
    (hbody : d.body = .Meta k (some t)) :
    solve (fuel + 1) loc v tm st = .ok () st := by
  simp [solve_succ, solveF, hget, hbody]

/-- Concrete instance of C2: a meta already solved with `TT` is untouched
by a later attempt to solve it with `Boolean`. -/
def c2v : Var := ⟨3, "m"⟩

/-- The solved meta definition of the C2 witness. -/
def c2d : Def := ⟨loc0, c2v, [], .Univ, .Meta .UserMeta (some .TT)⟩

/-- The state of the C2 witness. -/
def c2st : St := ⟨[(3, c2d)], 0⟩

/-- Witness for C2 at a concrete solved meta. -/
theorem solve_first_write_wins_witness :
    sigmaGet c2st.sigma c2v = some c2d ∧ c2d.body = .Meta .UserMeta (some .TT) ∧
    solve 1 loc0 c2v .Boolean c2st = .ok () c2st :=
  ⟨rfl, rfl, solve_first_write_wins 0 loc0 c2v .Boolean .TT c2st c2d .UserMeta rfl rfl⟩

/-! ## Claim C4: normalization of metavariable references -/

/-- C4: normalizing `MetaRef(k, x, sp)` when `Σ[x]` is an unsolved meta
first normalizes the stored return type; if that normal form is
`RowEq`/`RowOrd`/`ImplementsOf` the result is `RowRefl`/`RowSat`/
`ImplementsSat` respectively and that term is stored in Σ as the meta
solution; on any other return type the `MetaRef` is returned unchanged
(only the normalized return type is stored back); when the meta is
solved with `s`, the result is the renamed lambda of the telescope over
`s` applied to the spine and normalized, the definition being stored
back afterwards. -/
theorem metaref_normalization (fuel : Nat) (loc : Loc) (k k0 : MetaKind) (x : Var)
    (sp : List (ParamInfo × Term)) (r r1 : Rho) (st st1 : St) (d : Def) (ret1 : Term)
    (hget : sigmaGet st.sigma x = some d)
    (hret : term fuel loc d.ret r st = .ok (ret1, r1) st1) :
    (∀ ra rb, d.body = .Meta k0 none → ret1 = .RowEq ra rb →
      term (fuel + 1) loc (.MetaRef k x sp) r st =
        .ok (.RowRefl, r1)
          ⟨sigmaInsert st1.sigma x.id
            ⟨d.loc, d.name, d.tele, ret1, .Meta k (some .RowRefl)⟩, st1.ctr⟩)
    ∧ (∀ ra dd rb, d.body = .Meta k0 none → ret1 = .RowOrd ra dd rb →
      term (fuel + 1) loc (.MetaRef k x sp) r st =
        .ok (.RowSat, r1)
          ⟨sigmaInsert st1.sigma x.id
            ⟨d.loc, d.name, d.tele, ret1, .Meta k (some .RowSat)⟩, st1.ctr⟩)
    ∧ (∀ ra iv, d.body = .Meta k0 none → ret1 = .ImplementsOf ra iv →
      term (fuel + 1) loc (.MetaRef k x sp) r st =
        .ok (.ImplementsSat, r1)
          ⟨sigmaInsert st1.sigma x.id
            ⟨d.loc, d.name, d.tele, ret1, .Meta k (some .ImplementsSat)⟩, st1.ctr⟩)
    ∧ (d.body = .Meta k0 none → autoImplicit ret1 = none →
      term (fuel + 1) loc (.MetaRef k x sp) r st =
        .ok (.MetaRef k x sp, r1)
          ⟨sigmaInsert st1.sigma x.id ⟨d.loc, d.name, d.tele, ret1, d.body⟩, st1.ctr⟩)
    ∧ (∀ s, d.body = .Meta k0 (some s) →
      term (fuel + 1) loc (.MetaRef k x sp) r st =
        (term fuel loc (spineApp (rename st1.ctr (Term.lam d.tele s)).1 sp) r1
            ⟨st1.sigma, (rename st1.ctr (Term.lam d.tele s)).2⟩).bind
          fun v st2 =>
            .ok v ⟨sigmaInsert st2.sigma x.id ⟨d.loc, d.name, d.tele, ret1, d.body⟩, st2.ctr⟩) := by
  refine ⟨?_, ?_, ?_, ?_, ?_⟩
  · intro ra rb hb hr
    subst hr
    simp [term_succ, termF, hget, interp_term, hret, hb, autoImplicit]
  · intro ra dd rb hb hr
    subst hr
    simp [term_succ, termF, hget, interp_term, hret, hb, autoImplicit]
  · intro ra iv hb hr
    subst hr
    simp [term_succ, termF, hget, interp_term, hret, hb, autoImplicit]
  · intro hb hauto
    simp [term_succ, termF, hget, interp_term, hret, hb, hauto]
  · intro s hb
    simp [term_succ, termF, hget, interp_term, hret, hb]

/-- The meta variable of the C4 witness. -/
def c4v : Var := ⟨4, "m"⟩

/-- An unsolved meta whose return type is a row-ordering constraint. -/
def c4d : Def := ⟨loc0, c4v, [], .RowOrd (.Fields []) .Le (.Fields []), .Meta .UserMeta none⟩

/-- The state of the C4 witness. -/
def c4st : St := ⟨[(4, c4d)], 0⟩

/-- Witness for C4: the constraint-typed unsolved meta auto-solves to
`RowSat` and the solution is stored in Σ. -/
theorem metaref_normalization_witness :
    term 3 loc0 (.MetaRef .UserMeta c4v []) [] c4st =
      .ok (.RowSat, ([] : Rho))
        ⟨sigmaInsert c4st.sigma c4v.id
          ⟨loc0, c4v, [], .RowOrd (.Fields []) .Le (.Fields []),
           .Meta .UserMeta (some .RowSat)⟩, 0⟩ :=
  (metaref_normalization 2 loc0 .UserMeta .UserMeta c4v [] [] [] c4st c4st c4d
      (.RowOrd (.Fields []) .Le (.Fields [])) rfl rfl).2.1 (.Fields []) .Le (.Fields []) rfl rfl

/-! ## Claim C10: record and variant reductions treat field presence as
a precondition and panic on violation -/

/-- Helper for the `Downcast`/`Upcast` panic: a key of the first map
missing from the second makes the collection panic. -/
theorem pickFields_none_of_missing (y x : FieldMap) (n : Name)
    (hn : n ∈ fieldKeys y) (hx : lookupField x n = none) :
    pickFields y x = none := by
  induction y with
  | nil => cases hn
  | cons hd tl ih =>
    obtain ⟨m, w⟩ := hd
    simp [fieldKeys] at hn
    rcases hn with h | h
    · subst h
      simp [pickFields, hx]
    · simp [pickFields]
      cases hlk : lookupField x m with
      | none => rfl
      | some v => simp [ih (by simpa [fieldKeys] using h)]

/-- C10: the record/variant reduction rules of the normalizer require
field presence and panic (`unwrap`/indexing) when it fails: `Access`
needs the accessed name in the object row (returning its value when
present); `Downcast` needs every target name present in the source
object; `Upcast` needs every source name present in the target row;
`Switch` needs a non-empty variant row whose first field carries a tag
present in the case map, and consults only that first field. -/
theorem row_reduction_preconditions (fuel : Nat) (loc : Loc) :
    (∀ a n fs r r1 st st1, term fuel loc a r st = .ok (.Obj (.Fields fs), r1) st1 →
      lookupField fs n = none →
      term (fuel + 1) loc (.Access a n) r st = .crash)
    ∧ (∀ a n fs v r r1 st st1, term fuel loc a r st = .ok (.Obj (.Fields fs), r1) st1 →
      lookupField fs n = some v →
      term (fuel + 1) loc (.Access a n) r st = .ok (v, r1) st1)
    ∧ (∀ a y x n r r1 st st1, term fuel loc a r st = .ok (.Obj (.Fields x), r1) st1 →
      n ∈ fieldKeys y → lookupField x n = none →
      term (fuel + 1) loc (.Downcast a (.Fields y)) r st = .crash)
    ∧ (∀ a y x n r r1 st st1, term fuel loc a r st = .ok (.Variant (.Fields x), r1) st1 →
      n ∈ fieldKeys x → lookupField y n = none →
      term (fuel + 1) loc (.Upcast a (.Fields y)) r st = .crash)
    ∧ (∀ a cs r r1 st st1, term fuel loc a r st = .ok (.Variant (.Fields []), r1) st1 →
      term (fuel + 1) loc (.Switch a cs) r st = .crash)
    ∧ (∀ a cs n x rest r r1 st st1,
      term fuel loc a r st = .ok (.Variant (.Fields ((n, x) :: rest)), r1) st1 →
      lookupCase cs n = none →
      term (fuel + 1) loc (.Switch a cs) r st = .crash)
    ∧ (∀ a cs n x rest v tmc r r1 st st1,
      term fuel loc a r st = .ok (.Variant (.Fields ((n, x) :: rest)), r1) st1 →
      lookupCase cs n = some (v, tmc) →
      term (fuel + 1) loc (.Switch a cs) r st = term fuel loc tmc (rhoInsert v x r1) st1) := by
  refine ⟨?_, ?_, ?_, ?_, ?_, ?_, ?_⟩
  · intro a n fs r r1 st st1 ha hn
    simp [term_succ, termF, interp_term, ha, hn]
  · intro a n fs v r r1 st st1 ha hn
    simp [term_succ, termF, interp_term, ha, hn]
  · intro a y x n r r1 st st1 ha hn hx
    simp [term_succ, termF, interp_term, ha, pickFields_none_of_missing y x n hn hx]
  · intro a y x n r r1 st st1 ha hn hx
    simp [term_succ, termF, interp_term, ha, pickFields_none_of_missing x y n hn hx]
  · intro a cs r r1 st st1 ha
    simp [term_succ, termF, interp_term, ha]
  · intro a cs n x rest r r1 st st1 ha hn
    simp [term_succ, termF, interp_term, ha, hn]
  · intro a cs n x rest v tmc r r1 st st1 ha hn
    simp [term_succ, termF, interp_term, ha, hn, withRho, rhoInsert]

/-- Witness for C10: accessing the absent field `a` of the empty object
panics, and switching on an empty variant row panics. -/
theorem row_reduction_preconditions_witness :
    term 3 loc0 (.Access (.Obj (.Fields [])) "a") [] ⟨[], 0⟩ = .crash ∧
    term 3 loc0 (.Switch (.Variant (.Fields [])) []) [] ⟨[], 0⟩ = .crash :=
  ⟨(row_reduction_preconditions 2 loc0).1 (.Obj (.Fields [])) "a" [] [] [] ⟨[], 0⟩ ⟨[], 0⟩
      rfl rfl,
   ((row_reduction_preconditions 2 loc0).2.2.2.2.1) (.Variant (.Fields [])) [] [] [] ⟨[], 0⟩
      ⟨[], 0⟩ rfl⟩


/-! ## Claim C3: the App normalization rule and the beta law -/

/-- Beta step of `appFinish` when the normalized argument is not a
metavariable reference. -/
theorem appFinish_beta (rec : Interp) (loc : Loc) (p1 : Param Term) (b1 x1 : Term)
    (r2 : Rho) (st2 : St) (hx : ∀ k v sp, x1 ≠ Term.MetaRef k v sp) :
    appFinish rec loc (.Lam p1 b1) x1 r2 st2 = rec.term loc b1 (rhoInsert p1.var x1 r2) st2 := by
  cases x1 <;> first
    | exact absurd rfl (hx _ _ _)
    | rfl

/-- C3 (amended): weak-head normalization of `App(f, x)` first
normalizes `f` and then `x` (threading ρ and Σ); if the normalized
argument is a `MetaRef` the application is rebuilt unreduced, and
otherwise, if the normalized function is `Lam(p1, b1)`, the result is
the normalization of `b1` under ρ extended with `p1.var ↦ x1` where
`x1` is the normalized argument.  The substitution-based consequence
`normalize(App(Lam(p, b), x)) ≡ normalize(b[p.var ↦ x])` claimed by the
spec does not hold in general (see the counterexample), because the
argument is normalized before being bound and because normalizing it
can mutate Σ and the fresh-name supply. -/
theorem app_normalization (fuel : Nat) (loc : Loc) (p : Param Term) (b x : Term)
    (r : Rho) (st : St) (f1 x1 : Term) (r1 r2 : Rho) (st1 st2 : St)
    (hf : term fuel loc (.Lam p b) r st = .ok (f1, r1) st1)
    (hx : term fuel loc x r1 st1 = .ok (x1, r2) st2) :
    (∀ k v sp, x1 = .MetaRef k v sp →
      term (fuel + 1) loc (.App (.Lam p b) x) r st = .ok (.App f1 x1, r2) st2)
    ∧ ((∀ k v sp, x1 ≠ .MetaRef k v sp) → ∀ p1 b1, f1 = .Lam p1 b1 →
      term (fuel + 1) loc (.App (.Lam p b) x) r st =
        term fuel loc b1 (rhoInsert p1.var x1 r2) st2) := by
  constructor
  · intro k v sp hm
    subst hm
    simp [term_succ, termF, interp_term, hf, hx, appFinish]
  · intro hnm p1 b1 hf1
    subst hf1
    simp [term_succ, termF, interp_term, hf, hx,
      appFinish_beta (interp fuel) loc p1 b1 x1 r2 st2 hnm]

/-- The definition unfolded by the C3 counterexample. -/
def c3u : Var := ⟨1, "u"⟩

/-- The lambda parameter of the C3 counterexample. -/
def c3p : Var := ⟨2, "p"⟩

/-- A Σ holding one function definition with a reducible body. -/
def c3st : St := ⟨[(1, ⟨loc0, c3u, [], .Univ, .Fun (.If .True .TT .TT)⟩)], 100⟩

/-- Counterexample to C3 as stated: with `b = Ref p` and `x = Undef u`
(not a `MetaRef`), `b[p ↦ x] = Undef u`, yet
`normalize(App(Lam(p, b), x))` yields `TT` while `normalize(b[p ↦ x])`
yields the unreduced `If(True, TT, TT)` (the `Undef` case returns the
canonical term without normalizing it; the beta branch then reduces
it). -/
theorem app_beta_law_counterexample :
    subst c3p (.Undef c3u) (.Ref c3p) = .Undef c3u ∧
    term 20 loc0 (.App (.Lam ⟨c3p, .Explicit, .Univ⟩ (.Ref c3p)) (.Undef c3u)) [] c3st =
      .ok (.TT, [(2, .If .True .TT .TT)]) c3st ∧
    term 20 loc0 (.Undef c3u) [] c3st = .ok (.If .True .TT .TT, []) c3st ∧
    Term.TT ≠ Term.If .True .TT .TT :=
  ⟨rfl, rfl, rfl, fun h => Term.noConfusion h⟩

/-- Witness for the amended C3 at a concrete beta redex. -/
theorem app_normalization_witness :
    term 6 loc0 (.App (.Lam ⟨c3p, .Explicit, .Univ⟩ (.Ref c3p)) .TT) [] ⟨[], 0⟩ =
      term 5 loc0 (.Ref c3p) (rhoInsert c3p .TT []) ⟨[], 0⟩ :=
  (app_normalization 5 loc0 ⟨c3p, .Explicit, .Univ⟩ (.Ref c3p) .TT [] ⟨[], 0⟩
      (.Lam ⟨c3p, .Explicit, .Univ⟩ (.Ref c3p)) .TT [] [] ⟨[], 0⟩ ⟨[], 0⟩ rfl rfl).2
    (fun _ _ _ h => Term.noConfusion h) ⟨c3p, .Explicit, .Univ⟩ (.Ref c3p) rfl

/-! ## Claim C5: idempotence of normalization fails -/

/-- The case variable of the C5 failing input. -/
def c5v : Var := ⟨7, "v"⟩

/-- The case map of the C5 failing input. -/
def c5cs : List (Name × Var × Term) := [("n", c5v, .Ref c5v)]

/-- C5 evaluated at the failing input: the `Switch` case of the
normalizer drops the `Variant` wrapper when the variant payload is not
yet a field row (`r => Switch(r, cs)` instead of rebuilding
`Switch(Variant(r), cs)`), so normalizing
`Switch(Variant(Variant({n: TT})), cs)` produces
`Switch(Variant({n: TT}), cs)`, which is itself a `Switch` redex: a
second normalization reduces it to `TT`.  Idempotence of normalization
fails on this input with an empty Σ. -/
theorem normalize_idempotence_failure :
    term 20 loc0 (.Switch (.Variant (.Variant (.Fields [("n", .TT)]))) c5cs) [] ⟨[], 0⟩ =
      .ok (.Switch (.Variant (.Fields [("n", .TT)])) c5cs, []) ⟨[], 0⟩ ∧
    term 20 loc0 (.Switch (.Variant (.Fields [("n", .TT)])) c5cs) [] ⟨[], 0⟩ =
      .ok (.TT, [(7, .TT)]) ⟨[], 0⟩ ∧
    Term.Switch (.Variant (.Fields [("n", .TT)])) c5cs ≠ Term.TT :=
  ⟨rfl, rfl, fun h => Term.noConfusion h⟩


/-! ## Claim C1: instance search order -/

/-- Match elimination for the `ImplementsOf` case at a non-reference
constraint argument. -/
theorem implementsOfCase_nonref (rec : Interp) (loc : Loc) (a : Term) (i : Var)
    (r : Rho) (st : St) (ha : ∀ v, a ≠ Term.Ref v) :
    implementsOfCase rec loc a i r st =
      (rec.checkConstraint loc a i st).bind fun _ st' =>
        .ok (.ImplementsOf a i, r) st' := by
  cases a <;> first
    | exact absurd rfl (ha _)
    | rfl

/-- Match elimination for the `Find` case at a non-reference target
type. -/
theorem findCase_nonref (rec : Interp) (loc : Loc) (ty : Term) (i f : Var)
    (r : Rho) (st : St) (ha : ∀ v, ty ≠ Term.Ref v) :
    findCase rec loc ty i f r st =
      (rec.findImplementation loc ty i f st).bind fun tm' st' =>
        .ok (tm', r) st' := by
  cases ty <;> first
    | exact absurd rfl (ha _)
    | rfl

/-- C1 (amended): for `ImplementsOf(a, i)` with `a` not a reference,
instance search scans `Σ[i].ims` in *insertion order* (first registered
first); for `Find(ty, i, f)` with `ty` not a reference it scans the
*reversed* list (most recently registered first).  In both scans the
first implementation whose implementor type unifies discharges the
search (for `Find`, returning the canonical term of the implementation
function), a failed unification keeps its Σ effects and the scan
continues, and an exhausted scan fails with
`UnresolvedImplementation`. -/
theorem instance_search_order (fuel : Nat) (loc : Loc) :
    (∀ a i r st, (∀ v, a ≠ Term.Ref v) →
      term (fuel + 1) loc (.ImplementsOf a i) r st =
        (checkConstraint fuel loc a i st).bind fun _ st' =>
          .ok (.ImplementsOf a i, r) st')
    ∧ (∀ x i st di fns ims, sigmaGet st.sigma i = some di → di.body = .Interface fns ims →
      checkConstraint (fuel + 1) loc x i st = checkConstraintLoop (interp fuel) loc x ims st)
    ∧ (∀ x st, checkConstraintLoop (interp fuel) loc x [] st =
        .err (.UnresolvedImplementation x loc) st)
    ∧ (∀ x st im rest dIm iv tv fns2 dTy y c1 u st1,
      sigmaGet st.sigma im = some dIm → dIm.body = .Implements iv tv fns2 →
      sigmaGet st.sigma tv = some dTy → toTerm dTy tv st.ctr = some (y, c1) →
      unify fuel loc y x ⟨st.sigma, c1⟩ = .ok u st1 →
      checkConstraintLoop (interp fuel) loc x (im :: rest) st = .ok () st1)
    ∧ (∀ x st im rest dIm iv tv fns2 dTy y c1 e st1,
      sigmaGet st.sigma im = some dIm → dIm.body = .Implements iv tv fns2 →
      sigmaGet st.sigma tv = some dTy → toTerm dTy tv st.ctr = some (y, c1) →
      unify fuel loc y x ⟨st.sigma, c1⟩ = .err e st1 →
      checkConstraintLoop (interp fuel) loc x (im :: rest) st =
        checkConstraintLoop (interp fuel) loc x rest st1)
    ∧ (∀ ty i f r st, (∀ v, ty ≠ Term.Ref v) →
      term (fuel + 1) loc (.Find ty i f) r st =
        (findImplementation fuel loc ty i f st).bind fun tm' st' =>
          .ok (tm', r) st')
    ∧ (∀ ty i f st di fns ims, sigmaGet st.sigma i = some di → di.body = .Interface fns ims →
      findImplementation (fuel + 1) loc ty i f st =
        findImplLoop (interp fuel) loc ty f ims.reverse st)
    ∧ (∀ ty f st, findImplLoop (interp fuel) loc ty f [] st =
        .err (.UnresolvedImplementation ty loc) st)
    ∧ (∀ ty f st im rest dIm iv tv fns2 dTy y c1 imFn u st1 dFn tm2 c2,
      sigmaGet st.sigma im = some dIm → dIm.body = .Implements iv tv fns2 →
      sigmaGet st.sigma tv = some dTy → toTerm dTy tv st.ctr = some (y, c1) →
      lookupVar fns2 f = some imFn →
      unify fuel loc ty y ⟨st.sigma, c1⟩ = .ok u st1 →
      sigmaGet st1.sigma imFn = some dFn → toTerm dFn imFn st1.ctr = some (tm2, c2) →
      findImplLoop (interp fuel) loc ty f (im :: rest) st = .ok tm2 ⟨st1.sigma, c2⟩)
    ∧ (∀ ty f st im rest dIm iv tv fns2 dTy y c1 imFn e st1,
      sigmaGet st.sigma im = some dIm → dIm.body = .Implements iv tv fns2 →
      sigmaGet st.sigma tv = some dTy → toTerm dTy tv st.ctr = some (y, c1) →
      lookupVar fns2 f = some imFn →
      unify fuel loc ty y ⟨st.sigma, c1⟩ = .err e st1 →
      findImplLoop (interp fuel) loc ty f (im :: rest) st =
        findImplLoop (interp fuel) loc ty f rest st1) := by
  refine ⟨?_, ?_, ?_, ?_, ?_, ?_, ?_, ?_, ?_, ?_⟩
  · intro a i r st ha
    simp [term_succ, termF, implementsOfCase_nonref _ loc a i r st ha, interp_cc]
  · intro x i st di fns ims hgi hbi
    simp [checkConstraint_succ, checkConstraintF, hgi, hbi]
  · intro x st
    rfl
  · intro x st im rest dIm iv tv fns2 dTy y c1 u st1 h1 h2 h3 h4 h5
    simp [checkConstraintLoop, h1, h2, h3, h4, interp_unify, h5]
  · intro x st im rest dIm iv tv fns2 dTy y c1 e st1 h1 h2 h3 h4 h5
    simp [checkConstraintLoop, h1, h2, h3, h4, interp_unify, h5]
  · intro ty i f r st ha
    simp [term_succ, termF, findCase_nonref _ loc ty i f r st ha, interp_fi]
  · intro ty i f st di fns ims hgi hbi
    simp [findImplementation_succ, findImplementationF, hgi, hbi]
  · intro ty f st
    rfl
  · intro ty f st im rest dIm iv tv fns2 dTy y c1 imFn u st1 dFn tm2 c2 h1 h2 h3 h4 h5 h6 h7 h8
    simp [findImplLoop, h1, h2, h3, h4, h5, interp_unify, h6, h7, h8]
  · intro ty f st im rest dIm iv tv fns2 dTy y c1 imFn e st1 h1 h2 h3 h4 h5 h6
    simp [findImplLoop, h1, h2, h3, h4, h5, interp_unify, h6]

/-- The interface of the C1 scenario. -/
def c1i : Var := ⟨10, "I"⟩

/-- First registered implementation (for `T1 = Number`). -/
def c1im1 : Var := ⟨11, "im1"⟩

/-- Second (most recent) registered implementation (for `T2 = Boolean`). -/
def c1im2 : Var := ⟨12, "im2"⟩

/-- Implementor type of the first implementation. -/
def c1t1 : Var := ⟨13, "T1"⟩

/-- Implementor type of the second implementation. -/
def c1t2 : Var := ⟨14, "T2"⟩

/-- The metavariable standing for the constraint argument. -/
def c1m : Var := ⟨15, "m"⟩

/-- Σ of the C1 scenario: one interface with two registered
implementations whose implementor types both unify with the target
metavariable, plus the unsolved target meta. -/
def c1sigma : Sigma :=
  [(10, ⟨loc0, c1i, [], .Univ, .Interface [] [c1im1, c1im2]⟩),
   (11, ⟨loc0, c1im1, [], .Univ, .Implements c1i c1t1 []⟩),
   (12, ⟨loc0, c1im2, [], .Univ, .Implements c1i c1t2 []⟩),
   (13, ⟨loc0, c1t1, [], .Univ, .Alias .Number⟩),
   (14, ⟨loc0, c1t2, [], .Univ, .Alias .Boolean⟩),
   (15, ⟨loc0, c1m, [], .Univ, .Meta .UserMeta none⟩)]

/-- Σ after the search: the meta solved with `Number`, the type of the
*first registered* implementation. -/
def c1sigmaN : Sigma :=
  [(10, ⟨loc0, c1i, [], .Univ, .Interface [] [c1im1, c1im2]⟩),
   (11, ⟨loc0, c1im1, [], .Univ, .Implements c1i c1t1 []⟩),
   (12, ⟨loc0, c1im2, [], .Univ, .Implements c1i c1t2 []⟩),
   (13, ⟨loc0, c1t1, [], .Univ, .Alias .Number⟩),
   (14, ⟨loc0, c1t2, [], .Univ, .Alias .Boolean⟩),
   (15, ⟨loc0, c1m, [], .Univ, .Meta .UserMeta (some .Number)⟩)]

/-- Σ with the meta solved with `Boolean`, what the claimed
most-recent-first order would have produced. -/
def c1sigmaB : Sigma :=
  [(10, ⟨loc0, c1i, [], .Univ, .Interface [] [c1im1, c1im2]⟩),
   (11, ⟨loc0, c1im1, [], .Univ, .Implements c1i c1t1 []⟩),
   (12, ⟨loc0, c1im2, [], .Univ, .Implements c1i c1t2 []⟩),
   (13, ⟨loc0, c1t1, [], .Univ, .Alias .Number⟩),
   (14, ⟨loc0, c1t2, [], .Univ, .Alias .Boolean⟩),
   (15, ⟨loc0, c1m, [], .Univ, .Meta .UserMeta (some .Boolean)⟩)]

/-- Counterexample to C1 as stated: with both registered implementations
unifiable against the metavariable target, `check_constraint` discharges
the constraint through the *first* registered implementation (solving
the meta with `Number`), although the most recent one also unifies (a
lone unification against it would solve the meta with `Boolean`): the
`ImplementsOf` search direction is insertion order, not its reverse. -/
theorem instance_search_order_counterexample :
    checkConstraint 20 loc0 (.MetaRef .UserMeta c1m []) c1i ⟨c1sigma, 100⟩ =
      .ok () ⟨c1sigmaN, 100⟩ ∧
    sigmaGet c1sigmaN c1m = some ⟨loc0, c1m, [], .Univ, .Meta .UserMeta (some .Number)⟩ ∧
    unify 20 loc0 .Boolean (.MetaRef .UserMeta c1m []) ⟨c1sigma, 100⟩ =
      .ok () ⟨c1sigmaB, 100⟩ ∧
    Term.Number ≠ Term.Boolean :=
  ⟨rfl, rfl, rfl, fun h => Term.noConfusion h⟩

/-- Interface function of the C1 `Find` scenario. -/
def c1f : Var := ⟨16, "f"⟩

/-- Implementation function registered by the first implementation. -/
def c1fn1 : Var := ⟨17, "fn1"⟩

/-- Implementation function registered by the second implementation. -/
def c1fn2 : Var := ⟨18, "fn2"⟩

/-- Σ of the C1 `Find` scenario. -/
def c1fsigma : Sigma :=
  [(10, ⟨loc0, c1i, [], .Univ, .Interface [c1f] [c1im1, c1im2]⟩),
   (11, ⟨loc0, c1im1, [], .Univ, .Implements c1i c1t1 [(c1f, c1fn1)]⟩),
   (12, ⟨loc0, c1im2, [], .Univ, .Implements c1i c1t2 [(c1f, c1fn2)]⟩),
   (13, ⟨loc0, c1t1, [], .Univ, .Alias .Number⟩),
   (14, ⟨loc0, c1t2, [], .Univ, .Alias .Boolean⟩),
   (17, ⟨loc0, c1fn1, [], .Univ, .ImplementsFn (.Str "one")⟩),
   (18, ⟨loc0, c1fn2, [], .Univ, .ImplementsFn (.Str "two")⟩)]

/-- Witness for the amended C1: the `ImplementsOf` scan enters the loop
on the insertion-ordered list and succeeds at its head (the first
registered implementation), while the `Find` scan enters the loop on
the reversed list and returns the canonical term of the most recently
registered implementation function. -/
theorem instance_search_order_witness :
    checkConstraint 20 loc0 (.MetaRef .UserMeta c1m []) c1i ⟨c1sigma, 100⟩ =
      checkConstraintLoop (interp 19) loc0 (.MetaRef .UserMeta c1m []) [c1im1, c1im2]
        ⟨c1sigma, 100⟩ ∧
    checkConstraintLoop (interp 19) loc0 (.MetaRef .UserMeta c1m []) [c1im1, c1im2]
        ⟨c1sigma, 100⟩ = .ok () ⟨c1sigmaN, 100⟩ ∧
    findImplementation 20 loc0 .Boolean c1i c1f ⟨c1fsigma, 100⟩ =
      findImplLoop (interp 19) loc0 .Boolean c1f [c1im2, c1im1] ⟨c1fsigma, 100⟩ ∧
    findImplLoop (interp 19) loc0 .Boolean c1f [c1im2, c1im1] ⟨c1fsigma, 100⟩ =
      .ok (.Str "two") ⟨c1fsigma, 100⟩ :=
  ⟨(instance_search_order 19 loc0).2.1 (.MetaRef .UserMeta c1m []) c1i ⟨c1sigma, 100⟩
      ⟨loc0, c1i, [], .Univ, .Interface [] [c1im1, c1im2]⟩ [] [c1im1, c1im2] rfl rfl,
   (instance_search_order 19 loc0).2.2.2.1 (.MetaRef .UserMeta c1m []) ⟨c1sigma, 100⟩
      c1im1 [c1im2] ⟨loc0, c1im1, [], .Univ, .Implements c1i c1t1 []⟩ c1i c1t1 []
      ⟨loc0, c1t1, [], .Univ, .Alias .Number⟩ .Number 100 () ⟨c1sigmaN, 100⟩
      rfl rfl rfl rfl rfl,
   (instance_search_order 19 loc0).2.2.2.2.2.2.1 .Boolean c1i c1f ⟨c1fsigma, 100⟩
      ⟨loc0, c1i, [], .Univ, .Interface [c1f] [c1im1, c1im2]⟩ [c1f] [c1im1, c1im2] rfl rfl,
   (instance_search_order 19 loc0).2.2.2.2.2.2.2.2.1 .Boolean c1f ⟨c1fsigma, 100⟩
      c1im2 [c1im1] ⟨loc0, c1im2, [], .Univ, .Implements c1i c1t2 [(c1f, c1fn2)]⟩ c1i c1t2
      [(c1f, c1fn2)] ⟨loc0, c1t2, [], .Univ, .Alias .Boolean⟩ .Boolean 100 c1fn2 ()
      ⟨c1fsigma, 100⟩ ⟨loc0, c1fn2, [], .Univ, .ImplementsFn (.Str "two")⟩ (.Str "two") 100
      rfl rfl rfl rfl rfl rfl rfl rfl⟩


/-! ## Claim C7: field-ordering unification -/

/-- Running the `unify_fields_ord` loop over a successfully processed
prefix and then a remainder. -/
theorem ordLoop_append (rec : Interp) (loc : Loc) (pre rest small big : FieldMap)
    (st st1 : St) (u : Unit)
    (h : unifyFieldsOrdLoop rec loc pre small big st = .ok u st1) :
    unifyFieldsOrdLoop rec loc (pre ++ rest) small big st =
      unifyFieldsOrdLoop rec loc rest small big st1 := by
  induction pre generalizing st with
  | nil =>
    simp [unifyFieldsOrdLoop] at h
    simp [h]
  | cons hd tl ih =>
    obtain ⟨x, a⟩ := hd
    cases hlk : lookupField big x with
    | none => simp [unifyFieldsOrdLoop, hlk] at h
    | some b =>
      simp [unifyFieldsOrdLoop, hlk] at h ⊢
      cases hu : rec.unify loc a b st with
      | ok u2 st2 =>
        rw [hu] at h
        simp at h
        exact ih st2 h
      | err e st2 => rw [hu] at h; simp at h
      | crash => rw [hu] at h; simp at h
      | timeout => rw [hu] at h; simp at h

/-- A successful `unify_fields_ord` loop implies every remaining field
name appears in the big map. -/
theorem ordLoop_ok_keys (rec : Interp) (loc : Loc) (rem small big : FieldMap)
    (st st1 : St) (u : Unit)
    (h : unifyFieldsOrdLoop rec loc rem small big st = .ok u st1) :
    ∀ n ∈ fieldKeys rem, ∃ b, lookupField big n = some b := by
  induction rem generalizing st with
  | nil => intro n hn; cases hn
  | cons hd tl ih =>
    obtain ⟨x, a⟩ := hd
    intro n hn
    cases hlk : lookupField big x with
    | none => simp [unifyFieldsOrdLoop, hlk] at h
    | some b =>
      simp [unifyFieldsOrdLoop, hlk] at h
      simp [fieldKeys] at hn
      rcases hn with hn | hn
      · subst hn; exact ⟨b, hlk⟩
      · cases hu : rec.unify loc a b st with
        | ok u2 st2 =>
          rw [hu] at h; simp at h
          exact ih st2 h n (by simpa [fieldKeys] using hn)
        | err e st2 => rw [hu] at h; simp at h
        | crash => rw [hu] at h; simp at h
        | timeout => rw [hu] at h; simp at h

/-- C7 (amended): `unify_fields_ord(small, big)` scans `small` in
iteration order: its loop succeeds on the empty remainder, requires
each field name of `small` to be present in `big` (a success implies
every name of `small` has a value in `big`) with the two types handed
to the unifier (extra fields of `big` never being consulted), and when
it reaches a field name absent from `big` — all earlier fields having
unified — it fails with `NonRowSat` carrying the two full maps.  A
failure on a *present* field with a non-unifiable type surfaces as the
unifier's own error (`NonUnifiable`), not `NonRowSat` (see the
counterexample). -/
theorem unify_fields_ord_spec (fuel : Nat) (loc : Loc) :
    (∀ small big st, unifyFieldsOrd (fuel + 1) loc small big st =
      unifyFieldsOrdLoop (interp fuel) loc small small big st)
    ∧ (∀ small big st, unifyFieldsOrdLoop (interp fuel) loc [] small big st = .ok () st)
    ∧ (∀ x a rest small big st b, lookupField big x = some b →
      unifyFieldsOrdLoop (interp fuel) loc ((x, a) :: rest) small big st =
        (unify fuel loc a b st).bind fun _ st' =>
          unifyFieldsOrdLoop (interp fuel) loc rest small big st')
    ∧ (∀ x a rest small big st, lookupField big x = none →
      unifyFieldsOrdLoop (interp fuel) loc ((x, a) :: rest) small big st =
        .err (.NonRowSat (.Fields small) (.Fields big) loc) st)
    ∧ (∀ small big st u st1, unifyFieldsOrd (fuel + 1) loc small big st = .ok u st1 →
      ∀ n ∈ fieldKeys small, ∃ b, lookupField big n = some b)
    ∧ (∀ pre n a rest big st u st1,
      unifyFieldsOrdLoop (interp fuel) loc pre (pre ++ (n, a) :: rest) big st = .ok u st1 →
      lookupField big n = none →
      unifyFieldsOrd (fuel + 1) loc (pre ++ (n, a) :: rest) big st =
        .err (.NonRowSat (.Fields (pre ++ (n, a) :: rest)) (.Fields big) loc) st1) := by
  refine ⟨?_, ?_, ?_, ?_, ?_, ?_⟩
  · intro small big st
    rfl
  · intro small big st
    rfl
  · intro x a rest small big st b hlk
    simp [unifyFieldsOrdLoop, hlk, interp_unify]
  · intro x a rest small big st hlk
    simp [unifyFieldsOrdLoop, hlk]
  · intro small big st u st1 h
    exact ordLoop_ok_keys (interp fuel) loc small small big st st1 u h
  · intro pre n a rest big st u st1 h hn
    have := ordLoop_append (interp fuel) loc pre ((n, a) :: rest)
      (pre ++ (n, a) :: rest) big st st1 u h
    simp [unifyFieldsOrd_succ, unifyFieldsOrdF, this, unifyFieldsOrdLoop, hn]

/-- Counterexample to C7 as stated: `small = {a: Boolean, b: Unit}`,
`big = {a: Number}` has the field `b` absent from `big`, yet the run
fails with `NonUnifiable(Boolean, Number)` — the type mismatch on `a`
is hit before the missing field — not with `NonRowSat`. -/
theorem unify_fields_ord_counterexample :
    unifyFieldsOrd 20 loc0 [("a", .Boolean), ("b", .Unit)] [("a", .Number)] ⟨[], 0⟩ =
      .err (.NonUnifiable .Boolean .Number loc0) ⟨[], 0⟩ ∧
    lookupField [("a", .Number)] "b" = none ∧
    Err.NonUnifiable .Boolean .Number loc0 ≠
      Err.NonRowSat (.Fields [("a", .Boolean), ("b", .Unit)]) (.Fields [("a", .Number)]) loc0 :=
  ⟨rfl, rfl, fun h => Err.noConfusion h⟩

/-- Witness for the amended C7: a prefix that unifies followed by a
missing field produces `NonRowSat` with the full maps. -/
theorem unify_fields_ord_spec_witness :
    unifyFieldsOrdLoop (interp 19) loc0 [("a", .Boolean)]
        [("a", .Boolean), ("b", .Unit)] [("a", .Boolean)] ⟨[], 0⟩ = .ok () ⟨[], 0⟩ ∧
    unifyFieldsOrd 20 loc0 [("a", .Boolean), ("b", .Unit)] [("a", .Boolean)] ⟨[], 0⟩ =
      .err (.NonRowSat (.Fields [("a", .Boolean), ("b", .Unit)])
        (.Fields [("a", .Boolean)]) loc0) ⟨[], 0⟩ :=
  ⟨rfl,
   (unify_fields_ord_spec 19 loc0).2.2.2.2.2 [("a", .Boolean)] "b" .Unit [] [("a", .Boolean)]
     ⟨[], 0⟩ () ⟨[], 0⟩ rfl rfl⟩



/-! ## Order facts for field keys

The lexicographic comparison backing the sorted field-map model, with
the handful of order lemmas used by the row theorems. -/

theorem charEqOfToNat (a b : Char) (h : a.toNat = b.toNat) : a = b := by
  rcases a with ⟨⟨av⟩, pa⟩
  rcases b with ⟨⟨bv⟩, pb⟩
  simp [Char.toNat, UInt32.toNat] at h
  have h2 := BitVec.eq_of_toNat_eq h
  subst h2
  rfl

theorem strEqOfData (a b : String) (h : a.data = b.data) : a = b := by
  cases a
  cases b
  exact congrArg String.mk h

theorem charsLt_irrefl (l : List Char) : charsLt l l = false := by
  induction l with
  | nil => rfl
  | cons a as ih => simp [charsLt, ih]

theorem charsLt_trans (a b c : List Char) (h1 : charsLt a b = true)
    (h2 : charsLt b c = true) : charsLt a c = true := by
  induction a generalizing b c with
  | nil =>
    cases b with
    | nil => exact absurd h1 (by simp [charsLt])
    | cons bh bt =>
      cases c with
      | nil => exact absurd h2 (by simp [charsLt])
      | cons ch ct => simp [charsLt]
  | cons ah at2 ih =>
    cases b with
    | nil => exact absurd h1 (by simp [charsLt])
    | cons bh bt =>
      cases c with
      | nil => exact absurd h2 (by simp [charsLt])
      | cons ch ct =>
        simp only [charsLt] at h1 h2 ⊢
        by_cases hab : ah.toNat < bh.toNat
        · by_cases hbc : bh.toNat < ch.toNat
          · simp [show ah.toNat < ch.toNat from Nat.lt_trans hab hbc]
          · by_cases hcb : ch.toNat < bh.toNat
            · simp [hbc, hcb] at h2
            · have : bh.toNat = ch.toNat := Nat.le_antisymm (Nat.not_lt.mp hcb) (Nat.not_lt.mp hbc)
              simp [show ah.toNat < ch.toNat from this ▸ hab]
        · by_cases hba : bh.toNat < ah.toNat
          · simp [hab, hba] at h1
          · have heq : ah.toNat = bh.toNat := Nat.le_antisymm (Nat.not_lt.mp hba) (Nat.not_lt.mp hab)
            rw [if_neg hab, if_neg hba] at h1
            by_cases hbc : bh.toNat < ch.toNat
            · simp [heq ▸ hbc]
            · by_cases hcb : ch.toNat < bh.toNat
              · simp [hbc, hcb] at h2
              · rw [if_neg hbc, if_neg hcb] at h2
                have heq2 : bh.toNat = ch.toNat :=
                  Nat.le_antisymm (Nat.not_lt.mp hcb) (Nat.not_lt.mp hbc)
                rw [heq.trans heq2, if_neg (Nat.lt_irrefl _), if_neg (Nat.lt_irrefl _)]
                exact ih bt ct h1 h2

theorem charsLt_eq_of_not (a b : List Char) (h1 : charsLt a b = false)
    (h2 : charsLt b a = false) : a = b := by
  induction a generalizing b with
  | nil =>
    cases b with
    | nil => rfl
    | cons bh bt => exact absurd h1 (by simp [charsLt])
  | cons ah at2 ih =>
    cases b with
    | nil => exact absurd h2 (by simp [charsLt])
    | cons bh bt =>
      simp only [charsLt] at h1 h2
      by_cases hab : ah.toNat < bh.toNat
      · simp [hab] at h1
      · by_cases hba : bh.toNat < ah.toNat
        · simp [hab, hba] at h2
        · rw [if_neg hab, if_neg hba] at h1
          rw [if_neg hba, if_neg hab] at h2
          have heq : ah = bh :=
            charEqOfToNat _ _ (Nat.le_antisymm (Nat.not_lt.mp hba) (Nat.not_lt.mp hab))
          rw [heq, ih bt h1 h2]

theorem nameLt_irrefl (a : Name) : nameLt a a = false :=
  charsLt_irrefl a.data

theorem nameLt_trans (a b c : Name) (h1 : nameLt a b = true) (h2 : nameLt b c = true) :
    nameLt a c = true :=
  charsLt_trans a.data b.data c.data h1 h2

theorem nameLt_eq_of_not (a b : Name) (h1 : nameLt a b = false) (h2 : nameLt b a = false) :
    a = b :=
  strEqOfData a b (charsLt_eq_of_not a.data b.data h1 h2)

theorem nameLt_asymm (a b : Name) (h : nameLt a b = true) : nameLt b a = false := by
  cases h2 : nameLt b a with
  | false => rfl
  | true => exact absurd (nameLt_trans a b a h h2) (by simp [nameLt_irrefl])

theorem nameLt_of_ne_of_not (a b : Name) (hne : ¬a = b) (h : nameLt a b = false) :
    nameLt b a = true := by
  cases h2 : nameLt b a with
  | true => rfl
  | false => exact absurd (nameLt_eq_of_not a b h h2) hne



/-! ## Field map lemmas

Lookup, sortedness and extensionality facts about `insertField` and the
right-biased merge of the `Combine` case. -/

@[simp] theorem fieldKeys_nil : fieldKeys [] = [] := rfl

@[simp] theorem fieldKeys_cons (n : Name) (v : Term) (tl : List (Name × Term)) :
    fieldKeys ((n, v) :: tl) = n :: fieldKeys tl := rfl

def lastVal : List (Name × Term) → Name → Option Term
  | [], _ => none
  | (n, v) :: rest, k =>
    match lastVal rest k with
    | some w => some w
    | none => if n = k then some v else none

def foldIns (l : List (Name × Term)) (acc : FieldMap) : FieldMap :=
  l.foldl (fun m pr => insertField pr.1 pr.2 m) acc

def SortedKeys (m : FieldMap) : Prop :=
  m.Pairwise (fun p q => nameLt p.1 q.1 = true)

theorem lookup_insertField (n k : Name) (v : Term) (m : FieldMap) :
    lookupField (insertField n v m) k = if k = n then some v else lookupField m k := by
  induction m with
  | nil => simp only [insertField, lookupField]
  | cons hd tl ih =>
    obtain ⟨a, w⟩ := hd
    by_cases h1 : n = a
    · subst h1
      rw [insertField, if_pos rfl]
      by_cases h3 : k = n
      · simp only [lookupField, if_pos h3]
      · simp only [lookupField, if_neg h3]
    · cases h2 : nameLt n a with
      | true =>
        rw [insertField, if_neg h1, if_pos h2]
        by_cases h3 : k = n
        · simp only [lookupField, if_pos h3, if_neg (h3 ▸ h1)]
        · simp only [lookupField, if_neg h3]
      | false =>
        rw [insertField, if_neg h1]
        rw [if_neg (show ¬nameLt n a = true by simp [h2])]
        by_cases h3 : k = a
        · have h4 : ¬k = n := fun h => h1 (h ▸ h3)
          simp only [lookupField, if_pos h3, if_neg h4]
        · simp only [lookupField, if_neg h3, ih]

theorem lookup_foldIns (l : List (Name × Term)) (acc : FieldMap) (k : Name) :
    lookupField (foldIns l acc) k =
      match lastVal l k with
      | some w => some w
      | none => lookupField acc k := by
  induction l generalizing acc with
  | nil => simp only [foldIns, List.foldl_nil, lastVal]
  | cons hd tl ih =>
    obtain ⟨n, v⟩ := hd
    show lookupField (foldIns tl (insertField n v acc)) k = _
    rw [ih]
    cases htl : lastVal tl k with
    | some w => simp only [lastVal, htl]
    | none =>
      simp only [lastVal, htl, lookup_insertField]
      by_cases h3 : k = n
      · rw [if_pos h3, if_pos (h3 ▸ rfl)]
      · rw [if_neg h3, if_neg (fun h : n = k => h3 h.symm)]

theorem mergeFields_eq_foldIns (a b : FieldMap) :
    mergeFields a b = foldIns (a ++ b) [] := rfl

theorem lookup_mergeFields (a b : FieldMap) (k : Name) :
    lookupField (mergeFields a b) k = lastVal (a ++ b) k := by
  rw [mergeFields_eq_foldIns, lookup_foldIns]
  cases h : lastVal (a ++ b) k <;> simp only [lookupField]

theorem lastVal_append (a b : List (Name × Term)) (k : Name) :
    lastVal (a ++ b) k =
      match lastVal b k with
      | some w => some w
      | none => lastVal a k := by
  induction a with
  | nil => cases h : lastVal b k <;> simp only [List.nil_append, lastVal, h]
  | cons hd tl ih =>
    obtain ⟨n, v⟩ := hd
    show lastVal ((n, v) :: (tl ++ b)) k = _
    simp only [lastVal, ih]
    cases h : lastVal b k <;> cases h2 : lastVal tl k <;> simp only [lastVal, h2]

theorem mem_of_lastVal_some (l : List (Name × Term)) (k : Name) (w : Term)
    (h : lastVal l k = some w) : k ∈ fieldKeys l := by
  induction l generalizing w with
  | nil => exact absurd h (by simp [lastVal])
  | cons hd tl ih =>
    obtain ⟨n, v⟩ := hd
    rw [fieldKeys_cons, List.mem_cons]
    simp only [lastVal] at h
    cases h2 : lastVal tl k with
    | some w2 => exact Or.inr (ih w2 h2)
    | none =>
      rw [h2] at h
      simp only at h
      by_cases h3 : n = k
      · exact Or.inl h3.symm
      · rw [if_neg h3] at h
        exact absurd h (by simp)

theorem lastVal_none_of_not_mem (l : List (Name × Term)) (k : Name)
    (h : k ∉ fieldKeys l) : lastVal l k = none := by
  cases h2 : lastVal l k with
  | none => rfl
  | some w => exact absurd (mem_of_lastVal_some l k w h2) h

theorem mem_of_lookup_some (l : FieldMap) (k : Name) (w : Term)
    (h : lookupField l k = some w) : k ∈ fieldKeys l := by
  induction l with
  | nil => exact absurd h (by simp [lookupField])
  | cons hd tl ih =>
    obtain ⟨n, v⟩ := hd
    rw [fieldKeys_cons, List.mem_cons]
    rw [lookupField] at h
    by_cases h3 : k = n
    · exact Or.inl h3
    · rw [if_neg h3] at h
      exact Or.inr (ih h)

theorem lookup_none_of_not_mem (l : FieldMap) (k : Name)
    (h : k ∉ fieldKeys l) : lookupField l k = none := by
  cases h2 : lookupField l k with
  | none => rfl
  | some w => exact absurd (mem_of_lookup_some l k w h2) h

theorem lastVal_eq_lookup (l : FieldMap) (k : Name) (h : (fieldKeys l).Nodup) :
    lastVal l k = lookupField l k := by
  induction l with
  | nil => rfl
  | cons hd tl ih =>
    obtain ⟨n, v⟩ := hd
    rw [fieldKeys_cons, List.nodup_cons] at h
    obtain ⟨hn, hnd⟩ := h
    rw [lastVal, lookupField]
    cases h2 : lastVal tl k with
    | some w =>
      have hk : k ∈ fieldKeys tl := mem_of_lastVal_some tl k w h2
      have h3 : ¬k = n := fun he => hn (he ▸ hk)
      rw [if_neg h3, ← ih hnd, h2]
    | none =>
      by_cases h3 : k = n
      · rw [if_pos h3, if_pos h3.symm]
      · rw [if_neg h3, if_neg (fun h : n = k => h3 h.symm), ← ih hnd, h2]

theorem mem_insertField (n : Name) (v : Term) (m : FieldMap) (q : Name × Term)
    (h : q ∈ insertField n v m) : q = (n, v) ∨ q ∈ m := by
  induction m with
  | nil =>
    rw [insertField] at h
    exact Or.inl (List.mem_singleton.mp h)
  | cons hd tl ih =>
    obtain ⟨a, w⟩ := hd
    by_cases h1 : n = a
    · subst h1
      rw [insertField, if_pos rfl] at h
      rcases List.mem_cons.mp h with h2 | h2
      · exact Or.inl h2
      · exact Or.inr (List.mem_cons_of_mem _ h2)
    · cases h2 : nameLt n a with
      | true =>
        rw [insertField, if_neg h1, if_pos h2] at h
        rcases List.mem_cons.mp h with h3 | h3
        · exact Or.inl h3
        · exact Or.inr h3
      | false =>
        rw [insertField, if_neg h1,
            if_neg (show ¬nameLt n a = true by simp [h2])] at h
        rcases List.mem_cons.mp h with h3 | h3
        · exact Or.inr (h3 ▸ List.mem_cons_self _ _)
        · rcases ih h3 with h4 | h4
          · exact Or.inl h4
          · exact Or.inr (List.mem_cons_of_mem _ h4)

theorem insertField_sorted (n : Name) (v : Term) (m : FieldMap)
    (h : SortedKeys m) : SortedKeys (insertField n v m) := by
  induction m with
  | nil => exact List.pairwise_singleton _ _
  | cons hd tl ih =>
    obtain ⟨a, w⟩ := hd
    obtain ⟨ha, htl⟩ := List.pairwise_cons.mp h
    by_cases h1 : n = a
    · subst h1
      rw [insertField, if_pos rfl]
      exact List.pairwise_cons.mpr ⟨ha, htl⟩
    · cases h2 : nameLt n a with
      | true =>
        rw [insertField, if_neg h1, if_pos h2]
        refine List.pairwise_cons.mpr ⟨?_, h⟩
        intro q hq
        rcases List.mem_cons.mp hq with h3 | h3
        · exact h3 ▸ h2
        · exact nameLt_trans _ _ _ h2 (ha q h3)
      | false =>
        have h3 : nameLt a n = true :=
          nameLt_of_ne_of_not n a h1 h2
        rw [insertField, if_neg h1,
            if_neg (show ¬nameLt n a = true by simp [h2])]
        refine List.pairwise_cons.mpr ⟨?_, ih htl⟩
        intro q hq
        rcases mem_insertField n v tl q hq with h4 | h4
        · exact h4 ▸ h3
        · exact ha q h4

theorem foldIns_sorted (l : List (Name × Term)) (acc : FieldMap)
    (h : SortedKeys acc) : SortedKeys (foldIns l acc) := by
  induction l generalizing acc with
  | nil => exact h
  | cons hd tl ih => exact ih _ (insertField_sorted hd.1 hd.2 acc h)

theorem mergeFields_sorted (a b : FieldMap) : SortedKeys (mergeFields a b) :=
  foldIns_sorted (a ++ b) [] List.Pairwise.nil

theorem sorted_lookup_ext (m1 m2 : FieldMap) (h1 : SortedKeys m1) (h2 : SortedKeys m2)
    (h : ∀ k, lookupField m1 k = lookupField m2 k) : m1 = m2 := by
  induction m1 generalizing m2 with
  | nil =>
    cases m2 with
    | nil => rfl
    | cons hd2 t2 =>
      obtain ⟨k2, v2⟩ := hd2
      have := h k2
      simp [lookupField] at this
  | cons hd t1 ih =>
    obtain ⟨k1, v1⟩ := hd
    obtain ⟨hh1, ht1⟩ := List.pairwise_cons.mp h1
    cases m2 with
    | nil =>
      have := h k1
      simp [lookupField] at this
    | cons hd2 t2 =>
      obtain ⟨k2, v2⟩ := hd2
      obtain ⟨hh2, ht2⟩ := List.pairwise_cons.mp h2
      have hke : k1 = k2 := by
        by_contra hne
        have e1 := h k1
        simp [lookupField, if_neg hne] at e1
        have m1mem := mem_of_lookup_some t2 k1 v1 e1.symm
        have hk21 : nameLt k2 k1 = true := by
          obtain ⟨x, hx⟩ := List.mem_map.mp m1mem
          have := hh2 x hx.1
          rw [hx.2] at this
          exact this
        have e2 := h k2
        simp [lookupField, if_neg (fun h : k2 = k1 => hne h.symm)] at e2
        have m2mem := mem_of_lookup_some t1 k2 v2 e2
        have hk12 : nameLt k1 k2 = true := by
          obtain ⟨x, hx⟩ := List.mem_map.mp m2mem
          have := hh1 x hx.1
          rw [hx.2] at this
          exact this
        rw [nameLt_asymm k1 k2 hk12] at hk21
        exact Bool.noConfusion hk21
      subst hke
      have hve : v1 = v2 := by
        have := h k1
        simp [lookupField] at this
        exact this
      subst hve
      have htleq : t1 = t2 := by
        refine ih t2 ht1 ht2 ?_
        intro k
        by_cases hk : k = k1
        · subst hk
          have hn1 : k ∉ fieldKeys t1 := by
            intro hm
            obtain ⟨x, hx⟩ := List.mem_map.mp hm
            have := hh1 x hx.1
            rw [hx.2] at this
            rw [nameLt_irrefl] at this
            exact Bool.noConfusion this
          have hn2 : k ∉ fieldKeys t2 := by
            intro hm
            obtain ⟨x, hx⟩ := List.mem_map.mp hm
            have := hh2 x hx.1
            rw [hx.2] at this
            rw [nameLt_irrefl] at this
            exact Bool.noConfusion this
          rw [lookup_none_of_not_mem t1 k hn1, lookup_none_of_not_mem t2 k hn2]
        · have := h k
          rw [lookupField, if_neg hk, lookupField, if_neg hk] at this
          exact this
      rw [htleq]

theorem mergeFields_comm_of_disjoint (a b : FieldMap)
    (hd : ∀ n, n ∈ fieldKeys a → n ∉ fieldKeys b) :
    mergeFields a b = mergeFields b a := by
  refine sorted_lookup_ext _ _ (mergeFields_sorted a b) (mergeFields_sorted b a) ?_
  intro k
  rw [lookup_mergeFields, lookup_mergeFields, lastVal_append, lastVal_append]
  cases ha : lastVal a k with
  | some w =>
    have hka := mem_of_lastVal_some a k w ha
    rw [lastVal_none_of_not_mem b k (hd k hka)]
  | none =>
    cases hb : lastVal b k <;> simp only



/-! ## Claim C6: Combine merges right-biased; commutativity on disjoint rows -/

/-- C6 (amended): normalizing `Combine(a, b)` when both operands
normalize to field rows yields the right-biased merge (on a shared key
the entry of `b` wins, as the lookup characterization states); when the
two rows have disjoint domains and normalizing each operand changes
neither ρ nor Σ, the two orders `Combine(a, b)` and `Combine(b, a)`
normalize to the same field map.  Without the state-invariance proviso
the commutativity claim is false: normalizing one operand can solve a
metavariable read by the other (see the counterexample). -/
theorem combine_merge (fuel : Nat) (loc : Loc) :
    (∀ a b r st fa1 r1 st1 fb1 r2 st2,
      term fuel loc a r st = .ok (.Fields fa1, r1) st1 →
      term fuel loc b r1 st1 = .ok (.Fields fb1, r2) st2 →
      term (fuel + 1) loc (.Combine a b) r st = .ok (.Fields (mergeFields fa1 fb1), r2) st2)
    ∧ (∀ fa fb n, (fieldKeys fa).Nodup → (fieldKeys fb).Nodup →
      lookupField (mergeFields fa fb) n =
        match lookupField fb n with
        | some v => some v
        | none => lookupField fa n)
    ∧ (∀ a b r st fa1 fb1,
      term fuel loc (.Fields a) r st = .ok (.Fields fa1, r) st →
      term fuel loc (.Fields b) r st = .ok (.Fields fb1, r) st →
      (∀ n, n ∈ fieldKeys fa1 → n ∉ fieldKeys fb1) →
      term (fuel + 1) loc (.Combine (.Fields a) (.Fields b)) r st =
        .ok (.Fields (mergeFields fa1 fb1), r) st ∧
      term (fuel + 1) loc (.Combine (.Fields b) (.Fields a)) r st =
        .ok (.Fields (mergeFields fa1 fb1), r) st) := by
  have merge1 : ∀ a b r st fa1 r1 st1 fb1 r2 st2,
      term fuel loc a r st = .ok (.Fields fa1, r1) st1 →
      term fuel loc b r1 st1 = .ok (.Fields fb1, r2) st2 →
      term (fuel + 1) loc (.Combine a b) r st = .ok (.Fields (mergeFields fa1 fb1), r2) st2 := by
    intro a b r st fa1 r1 st1 fb1 r2 st2 h1 h2
    simp [term_succ, termF, interp_term, h1, h2]
  refine ⟨merge1, ?_, ?_⟩
  · intro fa fb n hna hnb
    rw [lookup_mergeFields, lastVal_append, lastVal_eq_lookup fb n hnb,
      lastVal_eq_lookup fa n hna]
  · intro a b r st fa1 fb1 h1 h2 hdisj
    refine ⟨merge1 _ _ _ _ _ _ _ _ _ _ h1 h2, ?_⟩
    have := merge1 _ _ _ _ _ _ _ _ _ _ h2 h1
    rw [mergeFields_comm_of_disjoint fb1 fa1 (fun n hb ha => hdisj n ha hb)] at this
    exact this

def c6m : Var := ⟨15, "m"⟩
def c6sigma : Sigma := [(15, ⟨loc0, c6m, [], .Univ, .Meta .UserMeta none⟩)]
def c6sigmaS : Sigma := [(15, ⟨loc0, c6m, [], .Univ, .Meta .UserMeta (some .Number)⟩)]
def c6faL : FieldMap :=
  [("a", .RowOrd (.Fields [("n", .MetaRef .UserMeta c6m [])]) .Le (.Fields [("n", .Number)]))]
def c6fbL : FieldMap := [("b", .MetaRef .UserMeta c6m [])]
def c6res1 : FieldMap :=
  [("a", .RowOrd (.Fields [("n", .MetaRef .UserMeta c6m [])]) .Le (.Fields [("n", .Number)])),
   ("b", .Number)]
def c6res2 : FieldMap :=
  [("a", .RowOrd (.Fields [("n", .MetaRef .UserMeta c6m [])]) .Le (.Fields [("n", .Number)])),
   ("b", .MetaRef .UserMeta c6m [])]

theorem combine_commutativity_counterexample :
    term 20 loc0 (.Combine (.Fields c6faL) (.Fields c6fbL)) [] ⟨c6sigma, 100⟩ =
      .ok (.Fields c6res1, []) ⟨c6sigmaS, 100⟩ ∧
    term 20 loc0 (.Combine (.Fields c6fbL) (.Fields c6faL)) [] ⟨c6sigma, 100⟩ =
      .ok (.Fields c6res2, []) ⟨c6sigmaS, 100⟩ ∧
    fieldKeys c6faL = ["a"] ∧ fieldKeys c6fbL = ["b"] ∧ ("a" : Name) ≠ "b" ∧
    lookupField c6res1 "b" = some .Number ∧
    lookupField c6res2 "b" = some (.MetaRef .UserMeta c6m []) ∧
    Term.Fields c6res1 ≠ Term.Fields c6res2 :=
  ⟨rfl, rfl, rfl, rfl, by decide, rfl, rfl, fun h => by
    have h3 : c6res1 = c6res2 := by injection h
    have h2 : lookupField c6res1 "b" = lookupField c6res2 "b" := by rw [h3]
    rw [show lookupField c6res1 "b" = some .Number from rfl,
        show lookupField c6res2 "b" = some (.MetaRef .UserMeta c6m []) from rfl] at h2
    exact Term.noConfusion (Option.some.inj h2)⟩

theorem combine_merge_witness :
    term 3 loc0 (.Combine (.Fields [("a", .TT)]) (.Fields [("b", .Univ)])) [] ⟨[], 0⟩ =
      .ok (.Fields (mergeFields [("a", .TT)] [("b", .Univ)]), []) ⟨[], 0⟩ ∧
    term 3 loc0 (.Combine (.Fields [("b", .Univ)]) (.Fields [("a", .TT)])) [] ⟨[], 0⟩ =
      .ok (.Fields (mergeFields [("a", .TT)] [("b", .Univ)]), []) ⟨[], 0⟩ :=
  (combine_merge 2 loc0).2.2 [("a", .TT)] [("b", .Univ)] [] ⟨[], 0⟩ [("a", .TT)] [("b", .Univ)]
    rfl rfl (by decide)


/-! ## C9: duplicate-name detection in the resolver -/

/-- A successfully resolved prefix followed by a field whose name already
occurred makes the `Fields` loop fail with `DuplicateField` at the state the
prefix reached. -/
theorem fieldsLoop_dup (rec : RInterp) (loc : Loc) (pre : List (Name × Expr))
    (n : Name) (e : Expr) (rest : List (Name × Expr)) (names : List Name)
    (st st1 : RSt) (res : List (Name × Expr))
    (h : resolveFieldsLoop rec loc pre names st = .ok res st1)
    (hn : n ∈ names ∨ n ∈ pre.map Prod.fst) :
    resolveFieldsLoop rec loc (pre ++ (n, e) :: rest) names st =
      .err (.DuplicateField n loc) st1 := by
  induction pre generalizing names st res with
  | nil =>
    simp only [resolveFieldsLoop] at h
    obtain ⟨hres, hst⟩ : res = [] ∧ st1 = st := by
      cases h
      exact ⟨rfl, rfl⟩
    subst hst
    have hmem : n ∈ names := by
      rcases hn with h2 | h2
      · exact h2
      · simp at h2
    have hcont : names.contains n = true := List.elem_eq_true_of_mem hmem
    simp only [List.nil_append, resolveFieldsLoop, rnsInsert, hcont]
    rfl
  | cons hd tl ih =>
    obtain ⟨f, t⟩ := hd
    rw [List.cons_append]
    cases hcont : names.contains f with
    | true =>
      have h1 : resolveFieldsLoop rec loc ((f, t) :: tl) names st =
          .err (.DuplicateField f loc) st := by
        simp only [resolveFieldsLoop, rnsInsert, hcont]
        rfl
      rw [h1] at h
      exact Res.noConfusion h
    | false =>
      have h1 : resolveFieldsLoop rec loc ((f, t) :: tl) names st =
          (rec.expr t st).bind fun ty st1 =>
            (resolveFieldsLoop rec loc tl (f :: names) st1).bind fun rest1 st2 =>
              .ok ((f, ty) :: rest1) st2 := by
        simp only [resolveFieldsLoop, rnsInsert, hcont]
        rfl
      have h2 : resolveFieldsLoop rec loc ((f, t) :: (tl ++ (n, e) :: rest)) names st =
          (rec.expr t st).bind fun ty st1 =>
            (resolveFieldsLoop rec loc (tl ++ (n, e) :: rest) (f :: names) st1).bind
              fun rest1 st2 => .ok ((f, ty) :: rest1) st2 := by
        simp only [resolveFieldsLoop, rnsInsert, hcont]
        rfl
      rw [h1] at h
      rw [h2]
      cases hexp : rec.expr t st with
      | ok ty st2 =>
        rw [hexp] at h
        simp only [Res.bind_ok] at h ⊢
        cases hloop : resolveFieldsLoop rec loc tl (f :: names) st2 with
        | ok res2 st3 =>
          rw [hloop] at h
          simp only [Res.bind_ok] at h
          obtain ⟨hres, hst⟩ : res = (f, ty) :: res2 ∧ st1 = st3 := by
            cases h
            exact ⟨rfl, rfl⟩
          subst hst
          have hn2 : n ∈ f :: names ∨ n ∈ tl.map Prod.fst := by
            rcases hn with h3 | h3
            · exact Or.inl (List.mem_cons_of_mem _ h3)
            · rcases List.mem_cons.mp h3 with h4 | h4
              · exact Or.inl (h4 ▸ List.mem_cons_self _ _)
              · exact Or.inr h4
          rw [ih (f :: names) st2 res2 hloop hn2]
          rfl
        | err e2 st3 => rw [hloop] at h; simp at h
        | crash => rw [hloop] at h; simp at h
        | timeout => rw [hloop] at h; simp at h
      | err e2 st2 => rw [hexp] at h; simp at h
      | crash => rw [hexp] at h; simp at h
      | timeout => rw [hexp] at h; simp at h

/-- C9 (amended): `Resolver::expr` on a `Fields` row checks every field name
against a `RawNameSet`; the loop resolves fresh-named fields in order,
threading the name set, and aborts with `Error::DuplicateField` (not
`DuplicateName`, which the resolver reserves for global declarations in a
newer revision of `resolve.rs`) as soon as a field repeats a name seen
earlier in the row, keeping the state reached by the successful prefix. -/
theorem duplicate_field_detection (fuel : Nat) :
    (∀ loc fs st, resolveExpr (fuel + 1) (.Fields loc fs) st =
      (resolveFieldsLoop (rinterp fuel) loc fs [] st).bind fun fs1 st1 =>
        .ok (.Fields loc fs1) st1)
    ∧ (∀ loc names st, resolveFieldsLoop (rinterp fuel) loc [] names st = .ok [] st)
    ∧ (∀ loc f t rest names st, names.contains f = false →
      resolveFieldsLoop (rinterp fuel) loc ((f, t) :: rest) names st =
        (resolveExpr fuel t st).bind fun ty st1 =>
          (resolveFieldsLoop (rinterp fuel) loc rest (f :: names) st1).bind fun rest1 st2 =>
            .ok ((f, ty) :: rest1) st2)
    ∧ (∀ loc f t rest names st, names.contains f = true →
      resolveFieldsLoop (rinterp fuel) loc ((f, t) :: rest) names st =
        .err (.DuplicateField f loc) st)
    ∧ (∀ loc pre n e rest st st1 res,
      resolveFieldsLoop (rinterp fuel) loc pre [] st = .ok res st1 →
      n ∈ pre.map Prod.fst →
      resolveExpr (fuel + 1) (.Fields loc (pre ++ (n, e) :: rest)) st =
        .err (.DuplicateField n loc) st1) := by
  refine ⟨?_, ?_, ?_, ?_, ?_⟩
  · intro loc fs st
    simp [resolveExpr_succ, exprF, rinterp_expr]
  · intro loc names st
    rfl
  · intro loc f t rest names st hcont
    simp only [resolveFieldsLoop, rnsInsert, hcont]
    rfl
  · intro loc f t rest names st hcont
    simp only [resolveFieldsLoop, rnsInsert, hcont]
    rfl
  · intro loc pre n e rest st st1 res h hmem
    have := fieldsLoop_dup (rinterp fuel) loc pre n e rest [] st st1 res h (Or.inr hmem)
    simp [resolveExpr_succ, exprF, this]

def c9loc : Loc := ⟨2, 1, 5, 9⟩

/-- C9 counterexample: a record literal with a repeated field name is
rejected with `DuplicateField`, which is a different `Error` constructor from
the `DuplicateName` the claim announces. -/
theorem duplicate_field_error_counterexample :
    resolveExpr 2 (.Fields c9loc [("a", .TT c9loc), ("a", .TT c9loc)]) ⟨[], 0⟩ =
      .err (.DuplicateField "a" c9loc) ⟨[], 0⟩ ∧
    (∀ l, Err.DuplicateField "a" c9loc ≠ Err.DuplicateName l) := by
  constructor
  · rfl
  · intro l h
    exact Err.noConfusion h

theorem duplicate_field_detection_witness :
    resolveFieldsLoop (rinterp 1) c9loc [("a", .TT c9loc)] [] ⟨[], 0⟩ =
      .ok [("a", .TT c9loc)] ⟨[], 0⟩ ∧
    resolveExpr 2 (.Fields c9loc [("a", .TT c9loc), ("a", .Str c9loc "x")]) ⟨[], 0⟩ =
      .err (.DuplicateField "a" c9loc) ⟨[], 0⟩ :=
  ⟨rfl,
   (duplicate_field_detection 1).2.2.2.2 c9loc [("a", .TT c9loc)] "a" (.Str c9loc "x") [] ⟨[], 0⟩ ⟨[], 0⟩
     [("a", .TT c9loc)] rfl (by decide)⟩

/-! ## C8: stack discipline of Γ and the resolver name map -/

/-- A lookup misses when the identity is not among the keys. -/
theorem gammaGet_not_mem (g : Gamma) (v : Var) (h : v.id ∉ g.map Prod.fst) :
    gammaGet g v = none := by
  induction g with
  | nil => rfl
  | cons hd tl ih =>
    obtain ⟨k, t⟩ := hd
    simp only [List.map_cons, List.mem_cons, not_or] at h
    have hne : ¬ k = v.id := fun h2 => h.1 h2.symm
    simp only [gammaGet, if_neg hne]
    exact ih h.2

/-- `gamma.remove` after `gamma.insert` erases the binding outright: the
shadowed entry (if any) is NOT restored. -/
theorem gammaRemove_insert_get (v : Var) (t : Term) (g : Gamma)
    (h : (g.map Prod.fst).Nodup) :
    gammaGet (gammaRemove v (gammaInsert v t g)) v = none := by
  induction g with
  | nil => simp [gammaInsert, gammaRemove, gammaGet]
  | cons hd tl ih =>
    obtain ⟨k, u⟩ := hd
    simp only [List.map_cons, List.nodup_cons] at h
    by_cases hk : k = v.id
    · subst hk
      simp only [gammaInsert, if_pos rfl, gammaRemove, if_pos rfl]
      exact gammaGet_not_mem tl v h.1
    · simp only [gammaInsert, if_neg hk, gammaRemove, if_neg hk, gammaGet, if_neg hk]
      exact ih h.2

/-- Inserting into the resolver name map makes the name resolve to the new
variable. -/
theorem nmGet_insert_self (m : NameMap) (n : Name) (w : Var) :
    nmGet (nmInsert m n w).2 n = some w := by
  induction m with
  | nil => simp [nmInsert, nmGet]
  | cons hd tl ih =>
    obtain ⟨k, u⟩ := hd
    by_cases hk : k = n
    · subst hk
      simp [nmInsert, nmGet]
    · rcases hrec : nmInsert tl n w with ⟨o, r1⟩
      simp only [nmInsert, if_neg hk, hrec, nmGet]
      rw [hrec] at ih
      simpa using ih

/-- A name-map lookup misses when the name is not among the keys. -/
theorem nmGet_not_mem (m : NameMap) (n : Name) (h : n ∉ m.map Prod.fst) :
    nmGet m n = none := by
  induction m with
  | nil => rfl
  | cons hd tl ih =>
    obtain ⟨k, u⟩ := hd
    simp only [List.map_cons, List.mem_cons, not_or] at h
    have hne : ¬ k = n := fun h2 => h.1 h2.symm
    simp only [nmGet, if_neg hne]
    exact ih h.2

/-- Removing a name from a duplicate-free name map makes its lookup miss. -/
theorem nmRemove_get_self (m : NameMap) (n : Name) (h : (m.map Prod.fst).Nodup) :
    nmGet (nmRemove m n) n = none := by
  induction m with
  | nil => rfl
  | cons hd tl ih =>
    obtain ⟨k, u⟩ := hd
    simp only [List.map_cons, List.nodup_cons] at h
    by_cases hk : k = n
    · subst hk
      simp only [nmRemove, if_pos rfl]
      exact nmGet_not_mem tl k h.1
    · simp only [nmRemove, if_neg hk, nmGet, if_neg hk]
      exact ih h.2

/-- One-step unfolding of `guarded_check` exposing the push/elaborate/remove
structure. -/
theorem guardedCheck_unfold (fuel nf : Nat) (ps : List (Param Term)) (e : Expr)
    (ty : Term) (st : ESt) :
    guardedCheck (fuel + 1) nf ps e ty st =
      match (einterp fuel).check nf e ty
          ⟨st.sigma, ps.foldl (fun g p => gammaInsert p.var p.typ g) st.gamma, st.ctr⟩ with
      | .ok ret st1 =>
        .ok ret ⟨st1.sigma, ps.foldl (fun g p => gammaRemove p.var g) st1.gamma, st1.ctr⟩
      | .err er st1 => .err er st1
      | .crash => .crash
      | .timeout => .timeout := rfl

/-- One-step unfolding of `guarded_infer`. -/
theorem guardedInfer_unfold (fuel nf : Nat) (ps : List (Param Term)) (e : Expr)
    (hint : Option Term) (st : ESt) :
    guardedInfer (fuel + 1) nf ps e hint st =
      match (einterp fuel).infer nf e hint
          ⟨st.sigma, ps.foldl (fun g p => gammaInsert p.var p.typ g) st.gamma, st.ctr⟩ with
      | .ok ret st1 =>
        .ok ret ⟨st1.sigma, ps.foldl (fun g p => gammaRemove p.var g) st1.gamma, st1.ctr⟩
      | .err er st1 => .err er st1
      | .crash => .crash
      | .timeout => .timeout := rfl

/-- One-step unfolding of `Resolver::bodied` exposing the push/resolve/restore
structure. -/
theorem bodied_unfold (fuel : Nat) (vars : List Var) (e : Expr) (st : RSt) :
    resolveBodied fuel vars e st =
      match (rinterp fuel).expr e ⟨(pushVars vars st.map).2, st.ctr⟩ with
      | .ok ret st1 =>
        .ok ret ⟨restoreVars vars (pushVars vars st.map).1 st1.map, st1.ctr⟩
      | .err er st1 => .err er st1
      | .crash => .crash
      | .timeout => .timeout := rfl

/-- C8 (amended): on entry `guarded_check`/`guarded_infer` push the parameters
into Γ and `Resolver::bodied` pushes its variables into the name map, but the
cleanup differs by component and exit path.  On success the elaborator removes
the pushed parameters with `gamma.remove`, which discards rather than restores
a shadowed binding, while the resolver genuinely restores: a shadowed binding
is reinserted and an unshadowed one removed.  On an error exit neither
component runs its cleanup (the `?` operator returns early), so the error
state keeps every pushed binding. -/
theorem gamma_stack_discipline (fuel nf : Nat) :
    (∀ ps e ty st ret st1, guardedCheck (fuel + 1) nf ps e ty st = .ok ret st1 →
      ∃ st2, elabCheck fuel nf e ty
          ⟨st.sigma, ps.foldl (fun g p => gammaInsert p.var p.typ g) st.gamma, st.ctr⟩ =
          .ok ret st2 ∧
        st1 = ⟨st2.sigma, ps.foldl (fun g p => gammaRemove p.var g) st2.gamma, st2.ctr⟩)
    ∧ (∀ ps e ty st er st1, guardedCheck (fuel + 1) nf ps e ty st = .err er st1 →
      elabCheck fuel nf e ty
          ⟨st.sigma, ps.foldl (fun g p => gammaInsert p.var p.typ g) st.gamma, st.ctr⟩ =
        .err er st1)
    ∧ (∀ ps e hint st ret st1, guardedInfer (fuel + 1) nf ps e hint st = .ok ret st1 →
      ∃ st2, elabInfer fuel nf e hint
          ⟨st.sigma, ps.foldl (fun g p => gammaInsert p.var p.typ g) st.gamma, st.ctr⟩ =
          .ok ret st2 ∧
        st1 = ⟨st2.sigma, ps.foldl (fun g p => gammaRemove p.var g) st2.gamma, st2.ctr⟩)
    ∧ (∀ ps e hint st er st1, guardedInfer (fuel + 1) nf ps e hint st = .err er st1 →
      elabInfer fuel nf e hint
          ⟨st.sigma, ps.foldl (fun g p => gammaInsert p.var p.typ g) st.gamma, st.ctr⟩ =
        .err er st1)
    ∧ (∀ (v : Var) (t : Term) (g : Gamma), (g.map Prod.fst).Nodup →
      gammaGet (gammaRemove v (gammaInsert v t g)) v = none)
    ∧ (∀ vars e st ret st1, resolveBodied fuel vars e st = .ok ret st1 →
      ∃ st2, resolveExpr fuel e ⟨(pushVars vars st.map).2, st.ctr⟩ = .ok ret st2 ∧
        st1 = ⟨restoreVars vars (pushVars vars st.map).1 st2.map, st2.ctr⟩)
    ∧ (∀ vars e st er st1, resolveBodied fuel vars e st = .err er st1 →
      resolveExpr fuel e ⟨(pushVars vars st.map).2, st.ctr⟩ = .err er st1)
    ∧ (∀ (v o : Var) (m : NameMap),
      nmGet (restoreVars [v] [some o] m) o.name = some o)
    ∧ (∀ (v : Var) (m : NameMap), (m.map Prod.fst).Nodup →
      nmGet (restoreVars [v] [none] m) v.name = none) := by
  refine ⟨?_, ?_, ?_, ?_, ?_, ?_, ?_, ?_, ?_⟩
  · intro ps e ty st ret st1 h
    rw [guardedCheck_unfold] at h
    cases hc : (einterp fuel).check nf e ty
        ⟨st.sigma, ps.foldl (fun g p => gammaInsert p.var p.typ g) st.gamma, st.ctr⟩ with
    | ok r s2 =>
      rw [hc] at h
      obtain ⟨hr, hs⟩ : ret = r ∧
          st1 = ⟨s2.sigma, ps.foldl (fun g p => gammaRemove p.var g) s2.gamma, s2.ctr⟩ := by
        cases h
        exact ⟨rfl, rfl⟩
      refine ⟨s2, ?_, hs⟩
      rw [hr]
      exact hc
    | err e2 s2 => rw [hc] at h; exact Res.noConfusion h
    | crash => rw [hc] at h; exact Res.noConfusion h
    | timeout => rw [hc] at h; exact Res.noConfusion h
  · intro ps e ty st er st1 h
    rw [guardedCheck_unfold] at h
    cases hc : (einterp fuel).check nf e ty
        ⟨st.sigma, ps.foldl (fun g p => gammaInsert p.var p.typ g) st.gamma, st.ctr⟩ with
    | ok r s2 => rw [hc] at h; exact Res.noConfusion h
    | err e2 s2 =>
      rw [hc] at h
      obtain ⟨he, hs⟩ : er = e2 ∧ st1 = s2 := by
        cases h
        exact ⟨rfl, rfl⟩
      rw [he, hs]
      exact hc
    | crash => rw [hc] at h; exact Res.noConfusion h
    | timeout => rw [hc] at h; exact Res.noConfusion h
  · intro ps e hint st ret st1 h
    rw [guardedInfer_unfold] at h
    cases hc : (einterp fuel).infer nf e hint
        ⟨st.sigma, ps.foldl (fun g p => gammaInsert p.var p.typ g) st.gamma, st.ctr⟩ with
    | ok r s2 =>
      rw [hc] at h
      obtain ⟨hr, hs⟩ : ret = r ∧
          st1 = ⟨s2.sigma, ps.foldl (fun g p => gammaRemove p.var g) s2.gamma, s2.ctr⟩ := by
        cases h
        exact ⟨rfl, rfl⟩
      refine ⟨s2, ?_, hs⟩
      rw [hr]
      exact hc
    | err e2 s2 => rw [hc] at h; exact Res.noConfusion h
    | crash => rw [hc] at h; exact Res.noConfusion h
    | timeout => rw [hc] at h; exact Res.noConfusion h
  · intro ps e hint st er st1 h
    rw [guardedInfer_unfold] at h
    cases hc : (einterp fuel).infer nf e hint
        ⟨st.sigma, ps.foldl (fun g p => gammaInsert p.var p.typ g) st.gamma, st.ctr⟩ with
    | ok r s2 => rw [hc] at h; exact Res.noConfusion h
    | err e2 s2 =>
      rw [hc] at h
      obtain ⟨he, hs⟩ : er = e2 ∧ st1 = s2 := by
        cases h
        exact ⟨rfl, rfl⟩
      rw [he, hs]
      exact hc
    | crash => rw [hc] at h; exact Res.noConfusion h
    | timeout => rw [hc] at h; exact Res.noConfusion h
  · intro v t g h
    exact gammaRemove_insert_get v t g h
  · intro vars e st ret st1 h
    rw [bodied_unfold] at h
    cases hc : (rinterp fuel).expr e ⟨(pushVars vars st.map).2, st.ctr⟩ with
    | ok r s2 =>
      rw [hc] at h
      obtain ⟨hr, hs⟩ : ret = r ∧
          st1 = ⟨restoreVars vars (pushVars vars st.map).1 s2.map, s2.ctr⟩ := by
        cases h
        exact ⟨rfl, rfl⟩
      refine ⟨s2, ?_, hs⟩
      rw [hr]
      exact hc
    | err e2 s2 => rw [hc] at h; exact Res.noConfusion h
    | crash => rw [hc] at h; exact Res.noConfusion h
    | timeout => rw [hc] at h; exact Res.noConfusion h
  · intro vars e st er st1 h
    rw [bodied_unfold] at h
    cases hc : (rinterp fuel).expr e ⟨(pushVars vars st.map).2, st.ctr⟩ with
    | ok r s2 => rw [hc] at h; exact Res.noConfusion h
    | err e2 s2 =>
      rw [hc] at h
      obtain ⟨he, hs⟩ : er = e2 ∧ st1 = s2 := by
        cases h
        exact ⟨rfl, rfl⟩
      rw [he, hs]
      exact hc
    | crash => rw [hc] at h; exact Res.noConfusion h
    | timeout => rw [hc] at h; exact Res.noConfusion h
  · intro v o m
    exact nmGet_insert_self m o.name o
  · intro v m h
    exact nmRemove_get_self m v.name h

/-- C8 counterexample: three concrete exits refute strict stack discipline.
A failing `bodied` leaves the pushed variable `b` in the name map; a failing
`guarded_check` (non-Pi expected type for a lambda) leaves the pushed
parameter `x` in Γ; and a successful `guarded_check` whose parameter shadows
an outer binding of the same identity ends with the shadowed binding dropped
instead of restored. -/
theorem stack_discipline_counterexample :
    resolveBodied 1 [⟨5, "b"⟩] (.Unresolved loc0 ⟨99, "zz"⟩) ⟨[], 0⟩ =
      .err (.UnresolvedVar loc0) ⟨[("b", ⟨5, "b"⟩)], 0⟩ ∧
    ([("b", (⟨5, "b"⟩ : Var))] : NameMap) ≠ [] ∧
    guardedCheck 2 2 [⟨⟨6, "x"⟩, .Explicit, .Boolean⟩]
        (.Lam loc0 ⟨7, "y"⟩ (.TT loc0)) .Boolean ⟨[], [], 0⟩ =
      .err (.ExpectedPi .Boolean loc0) ⟨[], [(6, .Boolean)], 0⟩ ∧
    ([(6, Term.Boolean)] : Gamma) ≠ [] ∧
    guardedCheck 3 2 [⟨⟨6, "x"⟩, .Explicit, .Boolean⟩] (.TT loc0) .Unit
        ⟨[], [(6, .String)], 0⟩ = .ok .TT ⟨[], [], 0⟩ ∧
    ([] : Gamma) ≠ [(6, Term.String)] := by
  refine ⟨rfl, ?_, rfl, ?_, rfl, ?_⟩
  · intro h
    exact List.noConfusion h
  · intro h
    exact List.noConfusion h
  · intro h
    exact List.noConfusion h

theorem gamma_stack_discipline_witness :
    (∃ st2, elabCheck 2 2 (.TT loc0) .Unit ⟨[], [(6, .Boolean)], 0⟩ = .ok .TT st2 ∧
      (⟨[], [], 0⟩ : ESt) = ⟨st2.sigma, gammaRemove ⟨6, "x"⟩ st2.gamma, st2.ctr⟩) ∧
    gammaGet (gammaRemove ⟨6, "x"⟩ (gammaInsert ⟨6, "x"⟩ .Boolean [(6, .String)])) ⟨6, "x"⟩ = none ∧
    (∃ st2, resolveExpr 1 (.Unresolved loc0 ⟨9, "b"⟩)
        ⟨(pushVars [⟨5, "b"⟩] [("b", ⟨3, "b"⟩)]).2, 0⟩ = .ok (.Resolved loc0 ⟨5, "b"⟩) st2 ∧
      (⟨[("b", ⟨3, "b"⟩)], 0⟩ : RSt) =
        ⟨restoreVars [⟨5, "b"⟩] (pushVars [⟨5, "b"⟩] [("b", ⟨3, "b"⟩)]).1 st2.map, st2.ctr⟩) ∧
    nmGet (restoreVars [⟨4, "y"⟩] [some ⟨3, "b"⟩] [("b", ⟨4, "y"⟩)]) "b" = some ⟨3, "b"⟩ := by
  refine ⟨?_, ?_, ?_, ?_⟩
  · exact (gamma_stack_discipline 2 2).1 [⟨⟨6, "x"⟩, .Explicit, .Boolean⟩] (.TT loc0) .Unit
      ⟨[], [(6, .String)], 0⟩ .TT ⟨[], [], 0⟩ rfl
  · exact (gamma_stack_discipline 2 2).2.2.2.2.1 ⟨6, "x"⟩ .Boolean [(6, .String)] (by decide)
  · exact (gamma_stack_discipline 1 0).2.2.2.2.2.1 [⟨5, "b"⟩] (.Unresolved loc0 ⟨9, "b"⟩)
      ⟨[("b", ⟨3, "b"⟩)], 0⟩ (.Resolved loc0 ⟨5, "b"⟩) ⟨[("b", ⟨3, "b"⟩)], 0⟩ rfl
  · exact (gamma_stack_discipline 0 0).2.2.2.2.2.2.2.1 ⟨4, "y"⟩ ⟨3, "b"⟩ [("b", ⟨4, "y"⟩)]

end RowScript
